import Mathlib

/-!
# ilkorsh: a read / parse / execute / wait command interpreter

A shallow embedding of `src/ilkorsh.c` and the properties of its three stages:
`read_input` (line acquisition), `parse_arguments` (tokenisation with `strtok`)
and `run_command` (fork / exec / wait), composed by `main`.

Conventions of the embedding.

* Standard input is a list of bytes (`List Nat`, each taken modulo 256); once the
  list is exhausted `getchar` answers `EOF` for ever.
* A C `char` is signed and 8 bits wide, as on the x86 Linux targets of this
  program: a `char` value is an `Int` in `-128 .. 127`, and storing the `int`
  result of `getchar` into the `char` variable `c` is the narrowing `toChar`.
* Heap blocks are lists of cells indexed from `0`; the capacity requested from
  `malloc` / `realloc` is tracked next to the block, and a store past the
  capacity still takes effect (as it does on the real heap), so that the bounds
  of every store can be stated about the recorded pairs `(index, capacity)`.
* `malloc` and `realloc` succeed or fail as the parameter `alloc` says for the
  requested number of cells.
-/

namespace Ilkorsh

/-! ## Constants -/

def INPUT_BUFFER_MIN : Nat := 64
def INPUT_BUFFER_MAX : Nat := 32768
def TOKEN_BUFFER_MIN : Nat := 64
def TOKEN_BUFFER_MAX : Nat := 1024

/-- The value `EOF` of `<stdio.h>`. -/
def EOF : Int := -1

/-- The ways in which the program terminates itself with `exit(EXIT_FAILURE)`. -/
inductive Fatal where
  | input_alloc      -- "ERROR: Input buffer allocation failed!" (read_input)
  | input_too_big    -- "ERROR: Input size too big!"
  | input_realloc    -- "ERROR: Input buffer re-allocation failed!"
  | token_alloc      -- "ERROR: Input buffer allocation failed!" (parse_arguments)
  | max_args         -- "ERROR: Max argument size exceeded!"
  | token_realloc    -- "ERROR: Argument buffer re-allocation failed!"
  | fork_failed      -- "Fork failed."
  | waitpid_failed   -- "Waitpid failed."
  | out_of_fuel      -- not a program state: the step budget of a loop model ran out
  deriving DecidableEq, Repr

/-! ## Memory -/

/-- The store `m[i] = v` into a block whose cells written so far are `m`; cells
skipped over by the store hold `dflt`. -/
def store {α : Type} (dflt : α) (m : List α) (i : Nat) (v : α) : List α :=
  if i < m.length then m.set i v else m ++ List.replicate (i - m.length) dflt ++ [v]

/-! ## `read_input` -/

/-- The call `getchar()`: the next byte of standard input as a non-negative
`int`, or `EOF`; and the input that is left. -/
def getchar : List Nat → Int × List Nat
  | [] => (EOF, [])
  | b :: rest => (((b % 256 : Nat) : Int), rest)

/-- Narrowing of an `int` to the signed 8-bit `char`. -/
def toChar (v : Int) : Int := (v + 128) % 256 - 128

/-- The local variables of `read_input` at the head of its loop, with the list
of the stores made so far, each as `(index, capacity at the time)`. -/
structure InputState where
  input_cnt : Nat
  input_buf_size : Nat
  input : List Int
  writes : List (Nat × Nat)
  deriving DecidableEq, Repr

/-- What `read_input` hands back: the buffer (cells `0 .. input_cnt`, the last
one the terminator), the final count and capacity, the stores made, and the
standard input left unread. -/
structure Line where
  input : List Int
  input_cnt : Nat
  input_buf_size : Nat
  writes : List (Nat × Nat)
  stdin : List Nat
  deriving DecidableEq, Repr

/-- Lines 36-38: store the terminator at `input_cnt` and return. -/
def read_return (st : InputState) (stdin : List Nat) : Line :=
  { input := store 0 st.input st.input_cnt 0
    input_cnt := st.input_cnt
    input_buf_size := st.input_buf_size
    writes := st.writes ++ [(st.input_cnt, st.input_buf_size)]
    stdin := stdin }

/-- The `while (1)` loop of `read_input` (lines 34-57). At the end of input
`getchar` gives `EOF`, whose narrowing is `EOF` again, so the loop returns. -/
def read_loop (alloc : Nat → Bool) : List Nat → InputState → Except Fatal Line
  | [], st => .ok (read_return st [])
  | b :: rest, st =>
    let c := toChar (getchar (b :: rest)).1
    if c = EOF ∨ c = 10 then .ok (read_return st rest)
    else
      let input := store 0 st.input st.input_cnt c
      let writes := st.writes ++ [(st.input_cnt, st.input_buf_size)]
      let input_cnt := st.input_cnt + 1
      if input_cnt = st.input_buf_size + 1 then
        let input_buf_size := st.input_buf_size * 2
        if input_buf_size > INPUT_BUFFER_MAX then .error Fatal.input_too_big
        else if alloc input_buf_size = false then .error Fatal.input_realloc
        else read_loop alloc rest
          { input_cnt := input_cnt, input_buf_size := input_buf_size,
            input := input, writes := writes }
      else read_loop alloc rest
        { input_cnt := input_cnt, input_buf_size := st.input_buf_size,
          input := input, writes := writes }

/-- The function `read_input` (lines 21-58) run on the standard input `stdin`. -/
def read_input (alloc : Nat → Bool) (stdin : List Nat) : Except Fatal Line :=
  if alloc INPUT_BUFFER_MIN = false then .error Fatal.input_alloc
  else read_loop alloc stdin
    { input_cnt := 0, input_buf_size := INPUT_BUFFER_MIN, input := [], writes := [] }

/-! ## `parse_arguments` -/

/-- The delimiter string `" \n\r\t"` passed to `strtok`. -/
def delim : List Int := [32, 10, 13, 9]

/-- The libc function `strspn` (C standard 7.24.5.6), not part of this
repository: the length of the longest initial segment of the string `s` made of
characters of `accept`. A string ends at its first `0` cell. -/
def strspn : List Int → List Int → Nat
  | [], _ => 0
  | c :: cs, accept => if c ≠ 0 ∧ c ∈ accept then strspn cs accept + 1 else 0

/-- The libc function `strcspn` (C standard 7.24.5.3), not part of this
repository: the length of the longest initial segment of the string `s` made of
characters not in `reject`. -/
def strcspn : List Int → List Int → Nat
  | [], _ => 0
  | c :: cs, reject => if c ≠ 0 ∧ c ∉ reject then strcspn cs reject + 1 else 0

/-- The result of one `strtok` call: the token (an offset into the buffer, or
`none` for `NULL`), the buffer after the call, and the position saved for the
next call. -/
structure Tok where
  token : Option Nat
  buf : List Int
  olds : Nat
  deriving DecidableEq, Repr

/-- The libc function `strtok` (C standard 7.24.5.8), not part of this
repository, on the buffer `buf`: `s` is the string to scan (`none` for `NULL`:
continue from the saved position `olds`). It skips leading delimiters, and if a
token starts there, overwrites the delimiter that ends it with a terminator. -/
def strtok (buf : List Int) (s : Option Nat) (delim : List Int) (olds : Nat) : Tok :=
  let s := s.getD olds
  if buf.getD s 0 = 0 then { token := none, buf := buf, olds := s }
  else
    let s := s + strspn (buf.drop s) delim
    if buf.getD s 0 = 0 then { token := none, buf := buf, olds := s }
    else
      let e := s + strcspn (buf.drop s) delim
      if buf.getD e 0 = 0 then { token := some s, buf := buf, olds := e }
      else { token := some s, buf := buf.set e 0, olds := e + 1 }

/-- The local variables of `parse_arguments` at the head of its loop, with the
line buffer, the position `strtok` saved, and the stores made so far into the
token list, each as `(index, capacity at the time)`. -/
structure TokenState where
  token_cnt : Nat
  token_list_size : Nat
  token_list : List (Option Nat)
  writes : List (Nat × Nat)
  input : List Int
  olds : Nat
  deriving DecidableEq, Repr

/-- What `parse_arguments` hands back: the token list (offsets into the line
buffer, `none` for `NULL`), the final count and capacity, the stores made into
the list, and the line buffer as `strtok` left it. -/
structure Args where
  token_list : List (Option Nat)
  token_cnt : Nat
  token_list_size : Nat
  writes : List (Nat × Nat)
  input : List Int
  deriving DecidableEq, Repr

/-- Lines 106-118: the capacity of the token list after `token_cnt` was
incremented, or the fatal exit. -/
def grow_token_list (alloc : Nat → Bool) (token_cnt token_list_size : Nat) : Except Fatal Nat :=
  if token_cnt = token_list_size + 1 then
    if token_list_size * 2 > TOKEN_BUFFER_MAX then .error Fatal.max_args
    else if alloc (token_list_size * 2) = false then .error Fatal.token_realloc
    else .ok (token_list_size * 2)
  else .ok token_list_size

/-- The `while (token != NULL)` loop of `parse_arguments` (lines 102-121) and
the final store of `NULL` (lines 123-124). The first argument bounds the number
of iterations. -/
def parse_loop (alloc : Nat → Bool) : Nat → Option Nat → TokenState → Except Fatal Args
  | _, none, st => .ok
      { token_list := store none st.token_list st.token_cnt none
        token_cnt := st.token_cnt
        token_list_size := st.token_list_size
        writes := st.writes ++ [(st.token_cnt, st.token_list_size)]
        input := st.input }
  | 0, some _, _ => .error Fatal.out_of_fuel
  | fuel + 1, some token, st =>
    match grow_token_list alloc (st.token_cnt + 1) st.token_list_size with
    | .error e => .error e
    | .ok token_list_size =>
      let t := strtok st.input none delim st.olds
      parse_loop alloc fuel t.token
        { token_cnt := st.token_cnt + 1
          token_list_size := token_list_size
          token_list := store none st.token_list st.token_cnt (some token)
          writes := st.writes ++ [(st.token_cnt, st.token_list_size)]
          input := t.buf
          olds := t.olds }

/-- The function `parse_arguments` (lines 60-125) on the line buffer `input`.
Every iteration of the loop consumes at least one cell of the buffer, so
`input.length` iterations are enough. -/
def parse_arguments (alloc : Nat → Bool) (input : List Int) : Except Fatal Args :=
  if alloc TOKEN_BUFFER_MIN = false then .error Fatal.token_alloc
  else
    let t := strtok input (some 0) delim 0
    parse_loop alloc input.length t.token
      { token_cnt := 0, token_list_size := TOKEN_BUFFER_MIN, token_list := [], writes := [],
        input := t.buf, olds := t.olds }

/-- The string that starts at offset `p` of the buffer: the cells from `p` up to
the first terminator. -/
def cstr (buf : List Int) (p : Nat) : List Int := (buf.drop p).takeWhile (fun c => c ≠ 0)

/-- The entries of the returned token list before the end marker. -/
def Args.argv (a : Args) : List Nat := (a.token_list.takeWhile Option.isSome).filterMap id

/-- The argument strings `execvp` sees: the string at each token of `argv`. -/
def Args.strings (a : Args) : List (List Int) := a.argv.map (cstr a.input)

/-! ## `run_command` -/

/-- The classes of a wait status that the macros of `<sys/wait.h>` tell apart
(system macros, not part of this repository): exited with a code, killed by a
signal, stopped by a signal, or none of the three. -/
inductive WStatus where
  | exited (code : Nat)
  | signaled (sig : Nat)
  | stopped (sig : Nat)
  | other
  deriving DecidableEq, Repr

def WIFEXITED : WStatus → Bool
  | .exited _ => true
  | _ => false

def WIFSIGNALED : WStatus → Bool
  | .signaled _ => true
  | _ => false

def WIFSTOPPED : WStatus → Bool
  | .stopped _ => true
  | _ => false

/-- How a call of `run_command` ends for the process that made it. -/
inductive RunResult where
  /-- Control goes back to the caller; `seen` are the statuses `waitpid` gave. -/
  | returned (seen : List WStatus)
  /-- The parent called `exit(EXIT_FAILURE)`. -/
  | fatal (e : Fatal)
  /-- The child called `exit(EXIT_FAILURE)` after `execvp` failed. -/
  | child_exit_failure
  /-- The child became the requested program: `execvp` does not return. -/
  | replaced
  /-- The parent is blocked in `waitpid`: the child reports no further status. -/
  | waiting (seen : List WStatus)
  deriving DecidableEq, Repr

/-- The `do ... while` loop of the parent (lines 155-174). The list holds what
the successive `waitpid` calls report: `none` when a call returns `-1`. -/
def wait_loop : List (Option WStatus) → List WStatus → RunResult
  | [], seen => .waiting seen
  | none :: _, _ => .fatal Fatal.waitpid_failed
  | some status :: rest, seen =>
    if WIFEXITED status then .returned (seen ++ [status])
    else if WIFSIGNALED status then .returned (seen ++ [status])
    else if WIFSTOPPED status then .returned (seen ++ [status])
    else if WIFEXITED status || WIFSIGNALED status then wait_loop rest (seen ++ [status])
    else .returned (seen ++ [status])

/-- What the operating system answers during one call of `run_command`: the
value `fork` returns in this process, what `execvp` does with an argument
vector (`none`: it replaces the process image; `some r`: it returns `r`), and
what the successive `waitpid` calls report. -/
structure Sys where
  c_pid : Int
  execvp : List (Option Nat) → Option Int
  waits : List (Option WStatus)

/-- The function `run_command` (lines 127-179). -/
def run_command (arguments : List (Option Nat)) (sys : Sys) : RunResult :=
  if sys.c_pid = 0 then
    match sys.execvp arguments with
    | none => .replaced
    | some ret => if ret = -1 then .child_exit_failure else .returned []
  else if sys.c_pid < 0 then .fatal Fatal.fork_failed
  else wait_loop sys.waits []

/-! ## `main` -/

/-- What the session does that can be observed: it writes the prompt, and it
calls `run_command` on an argument vector, given here by its strings. -/
inductive Event where
  | prompt
  | run (argv : List (List Int))
  deriving DecidableEq, Repr

/-- Where the program is when the model of `main` stops: still in its loop, or
out of it with the way `read_input`, `parse_arguments` or `run_command` ended
the process. The loop `while (1)` has no other way out. -/
inductive Ending where
  | in_loop
  | fatal (e : Fatal)
  | in_run_command (r : RunResult)
  deriving DecidableEq, Repr

/-- The state of a session: the events so far, the standard input left, and
where the program is. -/
structure Session where
  out : List Event
  stdin : List Nat
  ending : Ending
  deriving DecidableEq, Repr

/-- The loop of `main` (lines 188-202) for at most `n` iterations, the `i`-th
of which gets the answers `sys i` from the operating system. -/
def main_loop (alloc : Nat → Bool) (sys : Nat → Sys) :
    Nat → Nat → List Nat → List Event → Session
  | 0, _, stdin, out => { out := out, stdin := stdin, ending := .in_loop }
  | n + 1, i, stdin, out =>
    match read_input alloc stdin with
    | .error e => { out := out ++ [.prompt], stdin := stdin, ending := .fatal e }
    | .ok command =>
      match parse_arguments alloc command.input with
      | .error e => { out := out ++ [.prompt], stdin := command.stdin, ending := .fatal e }
      | .ok argument_list =>
        match run_command argument_list.token_list (sys i) with
        | .returned _ =>
          main_loop alloc sys n (i + 1) command.stdin
            (out ++ [.prompt, .run argument_list.strings])
        | r =>
          { out := out ++ [.prompt, .run argument_list.strings], stdin := command.stdin,
            ending := .in_run_command r }

/-- The function `main` (lines 181-203), followed for `n` iterations. -/
def main (alloc : Nat → Bool) (sys : Nat → Sys) (n : Nat) (stdin : List Nat) : Session :=
  main_loop alloc sys n 0 stdin []

/-! ## The specification's vocabulary for lines -/

/-- The delimiters of the specification: space, tab, newline, carriage return. -/
def isDelim (c : Int) : Bool := c = 32 || c = 9 || c = 10 || c = 13

/-- The maximal runs of non-delimiter characters of a line, left to right: the
non-empty pieces that splitting the line at every delimiter leaves. -/
def runs (line : List Int) : List (List Int) :=
  (line.splitOnP isDelim).filter (fun r => !r.isEmpty)

instance {ε α : Type} [DecidableEq ε] [DecidableEq α] : DecidableEq (Except ε α)
  | .ok a, .ok b => if h : a = b then isTrue (by rw [h]) else isFalse (fun e => h (by cases e; rfl))
  | .error a, .error b =>
    if h : a = b then isTrue (by rw [h]) else isFalse (fun e => h (by cases e; rfl))
  | .ok _, .error _ => isFalse (fun e => by cases e)
  | .error _, .ok _ => isFalse (fun e => by cases e)

/-- The capacities the doubling policy of `read_input` can reach. -/
def capOK (s : Nat) : Prop :=
  s = 64 ∨ s = 128 ∨ s = 256 ∨ s = 512 ∨ s = 1024 ∨ s = 2048 ∨ s = 4096 ∨ s = 8192 ∨
    s = 16384 ∨ s = 32768

/-- The `char` that `read_input` holds in `c` after reading the byte `b`. -/
def charOf (b : Nat) : Int := toChar ((b % 256 : Nat) : Int)

/-! ## Definitions used in the statements -/

/-- The capacities the doubling policy of `parse_arguments` can reach. -/
def tcapOK (s : Nat) : Prop := s = 64 ∨ s = 128 ∨ s = 256 ∨ s = 512 ∨ s = 1024

/-- How `strtok` may change a cell of the line: not at all, or a delimiter into
a terminator. -/
def overwritten (c c' : Int) : Prop := c' = c ∨ (isDelim c = true ∧ c' = 0)

/-- One `strtok` call on `buf` followed by the loop of `parse_arguments`. -/
def parse_from (alloc : Nat → Bool) (fuel : Nat) (buf : List Int) (str : Option Nat) (olds : Nat)
    (cnt size : Nat) (tl : List (Option Nat)) (w : List (Nat × Nat)) : Except Fatal Args :=
  parse_loop alloc fuel (strtok buf str delim olds).token
    { token_cnt := cnt, token_list_size := size, token_list := tl, writes := w,
      input := (strtok buf str delim olds).buf, olds := (strtok buf str delim olds).olds }

/-- Counts the cells of a line that start a run: `prev` tells whether the cell
before the head of the list is a delimiter (or the line starts there). -/
def countRunsAux : Bool → List Int → Nat
  | _, [] => 0
  | prev, c :: cs =>
    if isDelim c then countRunsAux true cs
    else (if prev then 1 else 0) + countRunsAux false cs

/-- The number of maximal runs of non-delimiter characters of a line: the
number of non-delimiter cells that are the first cell of the line or come right
after a delimiter. -/
def countRuns (line : List Int) : Nat := countRunsAux true line

/-- An operating system in which this process is the parent and the child
exits with code 0 before the first status query. -/
def child_exits_at_once : Sys :=
  { c_pid := 7, execvp := fun _ => none, waits := [some (.exited 0)] }

/-- The line `echo hello world`. -/
def echo_hello_world : List Int :=
  [101, 99, 104, 111, 32, 104, 101, 108, 108, 111, 32, 119, 111, 114, 108, 100]

/-- The line made of `n` times the token `a`, each followed by one space. -/
def many_tokens : Nat → List Int
  | 0 => []
  | n + 1 => 97 :: 32 :: many_tokens n

/-- The strings joined with single spaces. -/
def joinSp : List (List Int) → List Int
  | [] => []
  | [t] => t
  | t :: r :: rs => t ++ 32 :: joinSp (r :: rs)

/-- Replaces every maximal run of delimiters by one space: `prev` tells
whether the cell before the head of the list is a delimiter. -/
def collapseAux : Bool → List Int → List Int
  | _, [] => []
  | prev, c :: cs =>
    if isDelim c then (if prev then collapseAux true cs else 32 :: collapseAux true cs)
    else c :: collapseAux false cs

/-- The delimiter-collapsed form of a line: the line with every maximal run of
consecutive delimiters collapsed to one separator, a space. -/
def collapse (line : List Int) : List Int := collapseAux false line

/-- Removes the separator at the very start, if there is one. -/
def stripLead (l : List Int) : List Int := if l.head? = some 32 then l.tail else l

/-- Removes the separator at the very end, if there is one. -/
def stripTrail (l : List Int) : List Int := if l.getLast? = some 32 then l.dropLast else l

/-- Lists the offsets of the cells of a line that start a run, the head of the
list being at offset `i`: `prev` tells whether the cell before it is a
delimiter (or the line starts there). -/
def runStartsAux : Bool → Nat → List Int → List Nat
  | _, _, [] => []
  | prev, i, c :: cs =>
    if isDelim c then runStartsAux true (i + 1) cs
    else (if prev then [i] else []) ++ runStartsAux false (i + 1) cs

/-- The offsets in a line at which its maximal runs of non-delimiter characters
start: the offsets of the non-delimiter cells that are the first cell of the
line or come right after a delimiter. -/
def runStarts (line : List Int) : List Nat := runStartsAux true 0 line

/-- The strings of the argument vector that `parse_arguments` yields for a
line of input bytes, held in a buffer of its own; no strings when it is fatal. -/
def command_of (alloc : Nat → Bool) (line : List Nat) : List (List Int) :=
  match parse_arguments alloc (line.map charOf ++ [0]) with
  | .ok a => a.strings
  | .error _ => []

/-! # Theorems -/

theorem store_length_eq {α : Type} (d : α) (m : List α) (v : α) :
    store d m m.length v = m ++ [v] := by
  simp [store]

/-- At the end of input `c` holds `EOF`: the test of line 36 succeeds. -/
theorem toChar_EOF : toChar (getchar []).1 = EOF := by decide

theorem read_loop_cons (alloc : Nat → Bool) (b : Nat) (rest : List Nat) (st : InputState) :
    read_loop alloc (b :: rest) st =
      if charOf b = EOF ∨ charOf b = 10 then .ok (read_return st rest)
      else if st.input_cnt + 1 = st.input_buf_size + 1 then
        if st.input_buf_size * 2 > INPUT_BUFFER_MAX then .error Fatal.input_too_big
        else if alloc (st.input_buf_size * 2) = false then .error Fatal.input_realloc
        else read_loop alloc rest
          { input_cnt := st.input_cnt + 1, input_buf_size := st.input_buf_size * 2,
            input := store 0 st.input st.input_cnt (charOf b),
            writes := st.writes ++ [(st.input_cnt, st.input_buf_size)] }
      else read_loop alloc rest
        { input_cnt := st.input_cnt + 1, input_buf_size := st.input_buf_size,
          input := store 0 st.input st.input_cnt (charOf b),
          writes := st.writes ++ [(st.input_cnt, st.input_buf_size)] } := rfl

theorem read_loop_ok (alloc : Nat → Bool) (halloc : ∀ n, alloc n = true) (suffix : List Nat)
    (hsuf : suffix = [] ∨ ∃ b r, suffix = b :: r ∧ (charOf b = EOF ∨ charOf b = 10)) :
    ∀ (l : List Nat) (st : InputState), (∀ b ∈ l, charOf b ≠ EOF ∧ charOf b ≠ 10) →
      st.input.length = st.input_cnt → capOK st.input_buf_size →
      st.input_cnt ≤ st.input_buf_size → st.input_cnt + l.length ≤ 32768 →
      ∃ cap w, capOK cap ∧ st.input_cnt + l.length ≤ cap ∧
        read_loop alloc (l ++ suffix) st = .ok
          { input := st.input ++ l.map charOf ++ [0]
            input_cnt := st.input_cnt + l.length
            input_buf_size := cap
            writes := w
            stdin := suffix.tail } := by
  intro l
  induction l with
  | nil =>
    intro st _ hlen hcap hle _
    refine ⟨st.input_buf_size, st.writes ++ [(st.input_cnt, st.input_buf_size)], hcap, by simpa, ?_⟩
    rcases hsuf with h | ⟨b, r, h, hb⟩
    · subst h
      simp [read_loop, read_return, ← hlen, store_length_eq]
    · subst h
      rw [List.nil_append, read_loop_cons, if_pos hb]
      simp [read_return, ← hlen, store_length_eq]
  | cons a l ih =>
    intro st hpl hlen hcap hle hfit
    have ha := hpl a (by simp)
    have ha2 : ¬ (charOf a = EOF ∨ charOf a = 10) := by
      intro h
      rcases h with h | h
      · exact ha.1 h
      · exact ha.2 h
    have hpl2 : ∀ b ∈ l, charOf b ≠ EOF ∧ charOf b ≠ 10 := fun b hb => hpl b (by simp [hb])
    have hst : store 0 st.input st.input_cnt (charOf a) = st.input ++ [charOf a] := by
      rw [← hlen, store_length_eq]
    simp only [List.length_cons] at hfit
    have hpos : 64 ≤ st.input_buf_size := by
      unfold capOK at hcap
      omega
    rw [List.cons_append, read_loop_cons, if_neg ha2, hst]
    by_cases hgrow : st.input_cnt = st.input_buf_size
    · have h2 : capOK (st.input_buf_size * 2) := by
        unfold capOK at hcap ⊢
        omega
      have h3 : ¬ (st.input_buf_size * 2 > INPUT_BUFFER_MAX) := by
        unfold capOK at h2
        unfold INPUT_BUFFER_MAX
        omega
      obtain ⟨cap, w, hc1, hc2, hc3⟩ := ih
        { input_cnt := st.input_cnt + 1, input_buf_size := st.input_buf_size * 2,
          input := st.input ++ [charOf a],
          writes := st.writes ++ [(st.input_cnt, st.input_buf_size)] }
        hpl2 (by simp [hlen]) h2 (by show st.input_cnt + 1 ≤ st.input_buf_size * 2; omega)
        (by show st.input_cnt + 1 + l.length ≤ 32768; omega)
      have hc2b : st.input_cnt + 1 + l.length ≤ cap := hc2
      refine ⟨cap, w, hc1, by simp only [List.length_cons]; omega, ?_⟩
      rw [if_pos (by rw [hgrow]), if_neg h3, if_neg (by simp [halloc]), hc3]
      simp [Nat.add_assoc, Nat.add_comm 1]
    · have hne : ¬ (st.input_cnt + 1 = st.input_buf_size + 1) := by omega
      obtain ⟨cap, w, hc1, hc2, hc3⟩ := ih
        { input_cnt := st.input_cnt + 1, input_buf_size := st.input_buf_size,
          input := st.input ++ [charOf a],
          writes := st.writes ++ [(st.input_cnt, st.input_buf_size)] }
        hpl2 (by simp [hlen]) hcap (by show st.input_cnt + 1 ≤ st.input_buf_size; omega)
        (by show st.input_cnt + 1 + l.length ≤ 32768; omega)
      have hc2b : st.input_cnt + 1 + l.length ≤ cap := hc2
      refine ⟨cap, w, hc1, by simp only [List.length_cons]; omega, ?_⟩
      rw [if_neg hne, hc3]
      simp [Nat.add_assoc, Nat.add_comm 1]

/-! ## Lemmas on `strtok` -/

theorem mem_delim_iff (c : Int) : c ∈ delim ↔ isDelim c = true := by
  simp only [delim, isDelim, List.mem_cons, List.mem_singleton, Bool.or_eq_true,
    decide_eq_true_eq, List.mem_nil_iff, or_false]
  tauto

theorem isDelim_ne_zero {c : Int} (h : isDelim c = true) : c ≠ 0 := by
  intro h0
  subst h0
  revert h
  decide

theorem getD_append_at (pre x : List Int) (k : Nat) :
    (pre ++ x).getD (pre.length + k) 0 = x.getD k 0 := by
  simp [List.getD_eq_getElem?_getD, List.getElem?_append_right]

theorem getD_append_at_zero (pre x : List Int) :
    (pre ++ x).getD pre.length 0 = x.getD 0 0 := getD_append_at pre x 0

theorem set_append_at (pre x : List Int) (k : Nat) (v : Int) :
    (pre ++ x).set (pre.length + k) v = pre ++ x.set k v := by
  simp [List.set_append]

theorem strspn_cons (c : Int) (cs accept : List Int) :
    strspn (c :: cs) accept = if c ≠ 0 ∧ c ∈ accept then strspn cs accept + 1 else 0 := rfl

theorem strcspn_cons (c : Int) (cs reject : List Int) :
    strcspn (c :: cs) reject = if c ≠ 0 ∧ c ∉ reject then strcspn cs reject + 1 else 0 := rfl

theorem strspn_append (ds x : List Int) (hds : ∀ c ∈ ds, isDelim c = true)
    (hx : strspn x delim = 0) : strspn (ds ++ x) delim = ds.length := by
  induction ds with
  | nil => simpa using hx
  | cons c ds ih =>
    have hc := hds c (by simp)
    have h1 : c ≠ 0 ∧ c ∈ delim := ⟨isDelim_ne_zero hc, (mem_delim_iff c).2 hc⟩
    rw [List.cons_append, strspn_cons, if_pos h1, ih (fun b hb => hds b (by simp [hb])),
      List.length_cons]

theorem strcspn_append (t x : List Int) (ht : ∀ c ∈ t, c ≠ 0 ∧ isDelim c = false)
    (hx : strcspn x delim = 0) : strcspn (t ++ x) delim = t.length := by
  induction t with
  | nil => simpa using hx
  | cons c t ih =>
    have hc := ht c (by simp)
    have h1 : c ≠ 0 ∧ c ∉ delim := ⟨hc.1, fun h => by
      have := (mem_delim_iff c).1 h
      rw [hc.2] at this
      exact Bool.false_ne_true this⟩
    rw [List.cons_append, strcspn_cons, if_pos h1, ih (fun b hb => ht b (by simp [hb])),
      List.length_cons]

/-- The call `strtok` on a buffer `pre ++ x` when the scan starts at `x`. -/
theorem strtok_at (pre x : List Int) (str : Option Nat) (olds : Nat)
    (h : str.getD olds = pre.length) :
    strtok (pre ++ x) str delim olds =
      if x.getD 0 0 = 0 then { token := none, buf := pre ++ x, olds := pre.length }
      else if x.getD (strspn x delim) 0 = 0 then
        { token := none, buf := pre ++ x, olds := pre.length + strspn x delim }
      else if x.getD (strspn x delim + strcspn (x.drop (strspn x delim)) delim) 0 = 0 then
        { token := some (pre.length + strspn x delim), buf := pre ++ x,
          olds := pre.length + (strspn x delim + strcspn (x.drop (strspn x delim)) delim) }
      else
        { token := some (pre.length + strspn x delim),
          buf := pre ++ x.set (strspn x delim + strcspn (x.drop (strspn x delim)) delim) 0,
          olds := pre.length + (strspn x delim + strcspn (x.drop (strspn x delim)) delim) + 1 } := by
  unfold strtok
  simp only [h, getD_append_at_zero, List.drop_left, getD_append_at, List.drop_append,
    Nat.add_assoc, set_append_at]

theorem strspn_token (t y : List Int) (hne : t ≠ []) (ht : ∀ c ∈ t, c ≠ 0 ∧ isDelim c = false) :
    strspn (t ++ y) delim = 0 ∧ (t ++ y).getD 0 0 ≠ 0 := by
  cases t with
  | nil => exact absurd rfl hne
  | cons c t =>
    have hc := ht c (by simp)
    have h1 : ¬ (c ≠ 0 ∧ c ∈ delim) := fun h => by
      have := (mem_delim_iff c).1 h.2
      rw [hc.2] at this
      exact Bool.false_ne_true this
    refine ⟨by rw [List.cons_append, strspn_cons, if_neg h1], ?_⟩
    simpa using hc.1

/-- When only delimiters are left in the line, `strtok` returns `NULL` and
leaves the buffer as it is. -/
theorem strtok_none (pre s rest : List Int) (str : Option Nat) (olds : Nat)
    (h : str.getD olds = pre.length) (hs : ∀ c ∈ s, isDelim c = true) :
    strtok (pre ++ (s ++ 0 :: rest)) str delim olds =
      { token := none, buf := pre ++ (s ++ 0 :: rest), olds := pre.length + s.length } := by
  rw [strtok_at pre _ str olds h]
  cases s with
  | nil => simp
  | cons c s =>
    have hc : c ≠ 0 := isDelim_ne_zero (hs c (by simp))
    have h1 : ¬ ((c :: s ++ 0 :: rest).getD 0 0 = 0) := by simpa using hc
    have h2 : strspn (c :: s ++ 0 :: rest) delim = (c :: s).length :=
      strspn_append (c :: s) (0 :: rest) hs (by simp [strspn_cons])
    rw [if_neg h1, h2, if_pos (by simpa using getD_append_at (c :: s) (0 :: rest) 0)]

/-- When the last token of the line runs up to the terminator, `strtok` returns
it and leaves the buffer as it is. -/
theorem strtok_last (pre ds t rest : List Int) (str : Option Nat) (olds : Nat)
    (h : str.getD olds = pre.length) (hds : ∀ c ∈ ds, isDelim c = true) (hne : t ≠ [])
    (ht : ∀ c ∈ t, c ≠ 0 ∧ isDelim c = false) :
    strtok (pre ++ (ds ++ (t ++ 0 :: rest))) str delim olds =
      { token := some (pre.length + ds.length), buf := pre ++ (ds ++ (t ++ 0 :: rest)),
        olds := pre.length + (ds.length + t.length) } := by
  rw [strtok_at pre _ str olds h]
  obtain ⟨hsp, hhd⟩ := strspn_token t (0 :: rest) hne ht
  have h2 : strspn (ds ++ (t ++ 0 :: rest)) delim = ds.length := strspn_append ds _ hds hsp
  have h1 : ¬ ((ds ++ (t ++ 0 :: rest)).getD 0 0 = 0) := by
    cases ds with
    | nil => simpa using hhd
    | cons c ds => simpa using isDelim_ne_zero (hds c (by simp))
  have h3 : ¬ ((ds ++ (t ++ 0 :: rest)).getD ds.length 0 = 0) := by
    rw [getD_append_at_zero]
    exact hhd
  have h4 : strcspn (t ++ 0 :: rest) delim = t.length :=
    strcspn_append t _ ht (by simp [strcspn_cons])
  have h5 : (ds ++ (t ++ 0 :: rest)).getD (ds.length + t.length) 0 = 0 := by
    rw [getD_append_at, getD_append_at_zero]
    rfl
  rw [if_neg h1, h2, if_neg h3, List.drop_left, h4, if_pos h5]

/-- When a delimiter follows the token, `strtok` overwrites that delimiter with
a terminator and saves the position after it. -/
theorem strtok_more (pre ds t x : List Int) (d : Int) (str : Option Nat) (olds : Nat)
    (h : str.getD olds = pre.length) (hds : ∀ c ∈ ds, isDelim c = true) (hne : t ≠ [])
    (ht : ∀ c ∈ t, c ≠ 0 ∧ isDelim c = false) (hd : isDelim d = true) :
    strtok (pre ++ (ds ++ (t ++ d :: x))) str delim olds =
      { token := some (pre.length + ds.length), buf := pre ++ (ds ++ (t ++ 0 :: x)),
        olds := pre.length + (ds.length + t.length) + 1 } := by
  rw [strtok_at pre _ str olds h]
  obtain ⟨hsp, hhd⟩ := strspn_token t (d :: x) hne ht
  have h2 : strspn (ds ++ (t ++ d :: x)) delim = ds.length := strspn_append ds _ hds hsp
  have h1 : ¬ ((ds ++ (t ++ d :: x)).getD 0 0 = 0) := by
    cases ds with
    | nil => simpa using hhd
    | cons c ds => simpa using isDelim_ne_zero (hds c (by simp))
  have h3 : ¬ ((ds ++ (t ++ d :: x)).getD ds.length 0 = 0) := by
    rw [getD_append_at_zero]
    exact hhd
  have hd1 : d ≠ 0 ∧ d ∈ delim := ⟨isDelim_ne_zero hd, (mem_delim_iff d).2 hd⟩
  have h4 : strcspn (t ++ d :: x) delim = t.length :=
    strcspn_append t _ ht (by rw [strcspn_cons, if_neg (fun hh => hh.2 hd1.2)])
  have h5 : ¬ ((ds ++ (t ++ d :: x)).getD (ds.length + t.length) 0 = 0) := by
    rw [getD_append_at, getD_append_at_zero]
    exact hd1.1
  have h6 : (ds ++ (t ++ d :: x)).set (ds.length + t.length) 0 = ds ++ (t ++ 0 :: x) := by
    rw [set_append_at]
    have := set_append_at t (d :: x) 0 0
    simp only [Nat.add_zero, List.set_cons_zero] at this
    rw [this]
  rw [if_neg h1, h2, if_neg h3, List.drop_left, h4, if_neg h5, h6]

/-! ## Lemmas on the runs of a line -/

theorem runs_nil : runs [] = [] := by
  simp [runs]

theorem runs_delims_append (ds x : List Int) (hds : ∀ c ∈ ds, isDelim c = true) :
    runs (ds ++ x) = runs x := by
  induction ds with
  | nil => rfl
  | cons c ds ih =>
    have hc := hds c (by simp)
    have := ih (fun b hb => hds b (by simp [hb]))
    simp only [runs] at this ⊢
    rw [List.cons_append, List.splitOnP_cons, if_pos hc, List.filter_cons]
    simpa using this

theorem runs_all_delim (s : List Int) (hs : ∀ c ∈ s, isDelim c = true) : runs s = [] := by
  have := runs_delims_append s [] hs
  rwa [List.append_nil, runs_nil] at this

theorem runs_token_last (t : List Int) (hne : t ≠ []) (ht : ∀ c ∈ t, isDelim c = false) :
    runs t = [t] := by
  unfold runs
  rw [List.splitOnP_eq_single _ _ (fun c hc => by simp [ht c hc])]
  simp [hne]

theorem runs_token_more (t x : List Int) (d : Int) (hne : t ≠ [])
    (ht : ∀ c ∈ t, isDelim c = false) (hd : isDelim d = true) :
    runs (t ++ d :: x) = t :: runs x := by
  unfold runs
  rw [List.splitOnP_first _ _ (fun c hc => by simp [ht c hc]) d hd]
  simp [hne]

/-- A line is made of delimiters only, or is a run of delimiters followed by a
token that ends the line or that a delimiter follows. -/
theorem line_cases (s : List Int) :
    (∀ c ∈ s, isDelim c = true) ∨
    (∃ ds t, s = ds ++ t ∧ (∀ c ∈ ds, isDelim c = true) ∧ t ≠ [] ∧
      (∀ c ∈ t, isDelim c = false)) ∨
    (∃ ds t d x, s = ds ++ (t ++ d :: x) ∧ (∀ c ∈ ds, isDelim c = true) ∧ t ≠ [] ∧
      (∀ c ∈ t, isDelim c = false) ∧ isDelim d = true) := by
  have e1 := List.takeWhile_append_dropWhile isDelim s
  have hds : ∀ c ∈ s.takeWhile isDelim, isDelim c = true := fun c hc => List.mem_takeWhile_imp hc
  by_cases hr : s.dropWhile isDelim = []
  · exact Or.inl (List.dropWhile_eq_nil_iff.1 hr)
  · have e2 := List.takeWhile_append_dropWhile (fun c => !isDelim c) (s.dropWhile isDelim)
    have ht : ∀ c ∈ (s.dropWhile isDelim).takeWhile (fun c => !isDelim c), isDelim c = false :=
      fun c hc => by simpa using List.mem_takeWhile_imp hc
    have hne : (s.dropWhile isDelim).takeWhile (fun c => !isDelim c) ≠ [] := by
      have hh := List.head_dropWhile_not isDelim s hr
      obtain ⟨c, r, hcr⟩ := List.exists_cons_of_ne_nil hr
      rw [hcr]
      simp only [hcr, List.head_cons] at hh
      simp [List.takeWhile_cons, hh]
    by_cases hr2 : (s.dropWhile isDelim).dropWhile (fun c => !isDelim c) = []
    · refine Or.inr (Or.inl ⟨_, _, ?_, hds, hne, ht⟩)
      rw [hr2, List.append_nil] at e2
      rw [e2, e1]
    · obtain ⟨d, x, hdx⟩ := List.exists_cons_of_ne_nil hr2
      have hh := List.head_dropWhile_not (fun c => !isDelim c) _ hr2
      simp only [hdx, List.head_cons] at hh
      refine Or.inr (Or.inr ⟨_, _, d, x, ?_, hds, hne, ht, by simpa using hh⟩)
      rw [← hdx, e2, e1]

/-! ## Lemmas on the loop of `parse_arguments` -/

theorem parse_loop_none (alloc : Nat → Bool) (fuel : Nat) (st : TokenState) :
    parse_loop alloc fuel none st = .ok
      { token_list := store none st.token_list st.token_cnt none
        token_cnt := st.token_cnt
        token_list_size := st.token_list_size
        writes := st.writes ++ [(st.token_cnt, st.token_list_size)]
        input := st.input } := by
  cases fuel <;> rfl

theorem parse_loop_some (alloc : Nat → Bool) (fuel token : Nat) (st : TokenState) :
    parse_loop alloc (fuel + 1) (some token) st =
      match grow_token_list alloc (st.token_cnt + 1) st.token_list_size with
      | .error e => .error e
      | .ok size => parse_from alloc fuel st.input none st.olds (st.token_cnt + 1) size
          (store none st.token_list st.token_cnt (some token))
          (st.writes ++ [(st.token_cnt, st.token_list_size)]) := rfl

theorem cstr_at (pre t y : List Int) (ht : ∀ c ∈ t, c ≠ 0) :
    cstr (pre ++ (t ++ 0 :: y)) pre.length = t := by
  unfold cstr
  rw [List.drop_left]
  induction t with
  | nil => simp
  | cons c t ih =>
    have hc := ht c (by simp)
    simp only [List.cons_append, List.takeWhile_cons, hc, ne_eq, not_false_eq_true,
      decide_True, if_true]
    rw [ih (fun b hb => ht b (by simp [hb]))]

theorem parse_from_none (alloc : Nat → Bool) (fuel : Nat) (pre s rest : List Int)
    (str : Option Nat) (olds cnt size : Nat) (tl : List (Option Nat)) (w : List (Nat × Nat))
    (hstr : str.getD olds = pre.length) (hs : ∀ c ∈ s, isDelim c = true) :
    parse_from alloc fuel (pre ++ (s ++ 0 :: rest)) str olds cnt size tl w = .ok
      { token_list := store none tl cnt none, token_cnt := cnt, token_list_size := size,
        writes := w ++ [(cnt, size)], input := pre ++ (s ++ 0 :: rest) } := by
  unfold parse_from
  rw [strtok_none pre s rest str olds hstr hs, parse_loop_none]

/-- One iteration of the loop when a token is left in the line: the token `t`
starts `k` cells into the rest `s` of the line, `mid` is what the cells up to
the saved position hold afterwards, and `s2` is the rest of the line after it. -/
theorem parse_from_step (alloc : Nat → Bool) (fuel : Nat) (pre s rest : List Int)
    (str : Option Nat) (olds cnt size : Nat) (tl : List (Option Nat)) (w : List (Nat × Nat))
    (h0 : ∀ c ∈ s, c ≠ 0) (hstr : str.getD olds = pre.length)
    (hnot : ¬ ∀ c ∈ s, isDelim c = true) :
    ∃ (k : Nat) (t mid s2 : List Int),
      t ≠ [] ∧ runs s = t :: runs s2 ∧ s2.length < s.length ∧ (∀ c ∈ s2, c ≠ 0) ∧
      (∀ s2', List.Forall₂ overwritten s2 s2' → List.Forall₂ overwritten s (mid ++ s2')) ∧
      (∀ s2', s2'.length = s2.length →
        cstr (pre ++ ((mid ++ s2') ++ 0 :: rest)) (pre.length + k) = t) ∧
      parse_from alloc (fuel + 1) (pre ++ (s ++ 0 :: rest)) str olds cnt size tl w =
        match grow_token_list alloc (cnt + 1) size with
        | .error e => .error e
        | .ok size2 => parse_from alloc fuel ((pre ++ mid) ++ (s2 ++ 0 :: rest)) none
            (pre ++ mid).length (cnt + 1) size2 (store none tl cnt (some (pre.length + k)))
            (w ++ [(cnt, size)]) := by
  have hrefl : ∀ l : List Int, List.Forall₂ overwritten l l := fun l =>
    List.forall₂_same.2 (fun c _ => Or.inl rfl)
  rcases line_cases s with hall | ⟨ds, t, hs, hds, hne, ht⟩ | ⟨ds, t, d, x, hs, hds, hne, ht, hd⟩
  · exact absurd hall hnot
  · subst hs
    have ht0 : ∀ c ∈ t, c ≠ 0 := fun c hc => h0 c (by simp [hc])
    refine ⟨ds.length, t, ds ++ t, [], hne, ?_, ?_, by simp, ?_, ?_, ?_⟩
    · rw [runs_delims_append ds t hds, runs_token_last t hne ht, runs_nil]
    · cases t with
      | nil => exact absurd rfl hne
      | cons c t => simp
    · intro s2' h
      cases h
      simpa using hrefl (ds ++ t)
    · intro s2' h
      have : s2' = [] := List.length_eq_zero.1 (by simpa using h)
      subst this
      have := cstr_at (pre ++ ds) t rest ht0
      simpa [List.append_assoc] using this
    · unfold parse_from
      have e1 : pre ++ ((ds ++ t) ++ 0 :: rest) = pre ++ (ds ++ (t ++ 0 :: rest)) := by simp
      have e2 : (pre ++ (ds ++ t)) ++ ([] ++ 0 :: rest) = pre ++ (ds ++ (t ++ 0 :: rest)) := by
        simp
      rw [e1, strtok_last pre ds t rest str olds hstr hds hne (fun c hc => ⟨ht0 c hc, ht c hc⟩),
        parse_loop_some, e2]
      simp only [List.length_append, parse_from]
  · subst hs
    have ht0 : ∀ c ∈ t, c ≠ 0 := fun c hc => h0 c (by simp [hc])
    refine ⟨ds.length, t, ds ++ (t ++ [0]), x, hne, ?_, ?_, fun c hc => h0 c (by simp [hc]),
      ?_, ?_, ?_⟩
    · rw [runs_delims_append ds _ hds, runs_token_more t x d hne ht hd]
    · simp
      omega
    · intro s2' h
      have h1 : List.Forall₂ overwritten (ds ++ (t ++ d :: x)) (ds ++ (t ++ 0 :: s2')) :=
        List.rel_append (hrefl ds) (List.rel_append (hrefl t)
          (List.Forall₂.cons (Or.inr ⟨hd, rfl⟩) h))
      simpa [List.append_assoc] using h1
    · intro s2' _
      have := cstr_at (pre ++ ds) t (s2' ++ 0 :: rest) ht0
      simpa [List.append_assoc] using this
    · unfold parse_from
      have e1 : pre ++ ((ds ++ (t ++ d :: x)) ++ 0 :: rest) =
          pre ++ (ds ++ (t ++ d :: (x ++ 0 :: rest))) := by simp
      have e2 : (pre ++ (ds ++ (t ++ [0]))) ++ (x ++ 0 :: rest) =
          pre ++ (ds ++ (t ++ 0 :: (x ++ 0 :: rest))) := by simp
      rw [e1, strtok_more pre ds t _ d str olds hstr hds hne
        (fun c hc => ⟨ht0 c hc, ht c hc⟩) hd, parse_loop_some, e2]
      simp only [List.length_append, parse_from, List.length_singleton, Nat.add_assoc]

theorem grow_token_list_ok (alloc : Nat → Bool) (halloc : ∀ n, alloc n = true) (cnt size : Nat)
    (hcap : tcapOK size) (hle : cnt ≤ size) (hfit : cnt + 1 ≤ 1024) :
    ∃ size2, grow_token_list alloc (cnt + 1) size = .ok size2 ∧ tcapOK size2 ∧
      cnt + 1 ≤ size2 := by
  unfold grow_token_list
  unfold tcapOK at hcap
  by_cases h : cnt + 1 = size + 1
  · refine ⟨size * 2, ?_, by unfold tcapOK; omega, by omega⟩
    rw [if_pos h, if_neg (by unfold TOKEN_BUFFER_MAX; omega), if_neg (by simp [halloc])]
  · exact ⟨size, by rw [if_neg h], hcap, by omega⟩

theorem grow_token_list_fatal (alloc : Nat → Bool) (cnt size : Nat)
    (hcap : tcapOK size) (hle : cnt ≤ size) (hfit : 1025 ≤ cnt + 1) :
    grow_token_list alloc (cnt + 1) size = .error Fatal.max_args := by
  unfold grow_token_list
  unfold tcapOK at hcap
  rw [if_pos (by omega), if_pos (by unfold TOKEN_BUFFER_MAX; omega)]

/-- The loop of `parse_arguments` from any point of a line with room left for
its tokens: it returns, the tokens stored are the runs of the rest of the line. -/
theorem parse_from_ok (alloc : Nat → Bool) (halloc : ∀ n, alloc n = true) (rest : List Int) :
    ∀ (fuel : Nat) (s pre : List Int) (str : Option Nat) (olds cnt size : Nat)
      (tl : List (Option Nat)) (w : List (Nat × Nat)),
      (∀ c ∈ s, c ≠ 0) → str.getD olds = pre.length → s.length ≤ fuel → tl.length = cnt →
      tcapOK size → cnt ≤ size → cnt + (runs s).length ≤ 1024 →
      ∃ (a : Args) (offs : List Nat) (s' : List Int),
        parse_from alloc fuel (pre ++ (s ++ 0 :: rest)) str olds cnt size tl w = .ok a ∧
        a.token_list = tl ++ offs.map some ++ [none] ∧
        a.input = pre ++ (s' ++ 0 :: rest) ∧
        List.Forall₂ overwritten s s' ∧
        offs.map (cstr a.input) = runs s ∧
        a.token_cnt = cnt + offs.length ∧
        tcapOK a.token_list_size ∧ a.token_cnt ≤ a.token_list_size := by
  intro fuel
  induction fuel with
  | zero =>
    intro s pre str olds cnt size tl w h0 hstr hfuel htl hcap hle _
    have hs : s = [] := List.length_eq_zero.1 (Nat.le_zero.1 hfuel)
    subst hs
    refine ⟨_, [], [], parse_from_none alloc 0 pre [] rest str olds cnt size tl w hstr (by simp),
      ?_, rfl, List.Forall₂.nil, by simp [runs_nil], rfl, hcap, hle⟩
    simp [← htl, store_length_eq]
  | succ fuel ih =>
    intro s pre str olds cnt size tl w h0 hstr hfuel htl hcap hle hfit
    by_cases hall : ∀ c ∈ s, isDelim c = true
    · refine ⟨_, [], s, parse_from_none alloc _ pre s rest str olds cnt size tl w hstr hall,
        ?_, rfl, List.forall₂_same.2 (fun c _ => Or.inl rfl),
        by simp [runs_all_delim s hall], rfl, hcap, hle⟩
      simp [← htl, store_length_eq]
    · obtain ⟨k, t, mid, s2, hne, hruns, hlen, h02, hframe, hcstr, hstep⟩ :=
        parse_from_step alloc fuel pre s rest str olds cnt size tl w h0 hstr hall
      rw [hruns, List.length_cons] at hfit
      obtain ⟨size2, hg, hcap2, hle2⟩ :=
        grow_token_list_ok alloc halloc cnt size hcap hle (by omega)
      rw [hg] at hstep
      obtain ⟨a, offs, s2', ha, htok, hin, hfr, hstrs, hcnt, hc1, hc2⟩ :=
        ih s2 (pre ++ mid) none (pre ++ mid).length (cnt + 1) size2
          (store none tl cnt (some (pre.length + k))) (w ++ [(cnt, size)]) h02 rfl (by omega)
          (by rw [← htl, store_length_eq, List.length_append, List.length_singleton])
          hcap2 hle2 (by omega)
      have hin2 : a.input = pre ++ ((mid ++ s2') ++ 0 :: rest) := by
        rw [hin]
        simp
      refine ⟨a, (pre.length + k) :: offs, mid ++ s2', hstep.trans ha, ?_, hin2, hframe s2' hfr,
        ?_, by rw [hcnt, List.length_cons]; omega, hc1, hc2⟩
      · rw [htok, ← htl, store_length_eq]
        simp
      · rw [List.map_cons, hstrs, hruns]
        congr 1
        rw [hin2]
        exact hcstr s2' (List.Forall₂.length_eq hfr).symm

/-- The loop of `parse_arguments` from any point of a line that has more tokens
left than the list may hold: the program exits with the argument-limit error. -/
theorem parse_from_fatal (alloc : Nat → Bool) (halloc : ∀ n, alloc n = true) (rest : List Int) :
    ∀ (fuel : Nat) (s pre : List Int) (str : Option Nat) (olds cnt size : Nat)
      (tl : List (Option Nat)) (w : List (Nat × Nat)),
      (∀ c ∈ s, c ≠ 0) → str.getD olds = pre.length → s.length ≤ fuel →
      tcapOK size → cnt ≤ size → 1025 ≤ cnt + (runs s).length →
      parse_from alloc fuel (pre ++ (s ++ 0 :: rest)) str olds cnt size tl w =
        .error Fatal.max_args := by
  intro fuel
  induction fuel with
  | zero =>
    intro s pre str olds cnt size tl w h0 hstr hfuel hcap hle hfit
    have hs : s = [] := List.length_eq_zero.1 (Nat.le_zero.1 hfuel)
    subst hs
    rw [runs_nil] at hfit
    unfold tcapOK at hcap
    simp only [List.length_nil] at hfit
    omega
  | succ fuel ih =>
    intro s pre str olds cnt size tl w h0 hstr hfuel hcap hle hfit
    by_cases hall : ∀ c ∈ s, isDelim c = true
    · rw [runs_all_delim s hall] at hfit
      unfold tcapOK at hcap
      simp only [List.length_nil] at hfit
      omega
    · obtain ⟨k, t, mid, s2, hne, hruns, hlen, h02, hframe, hcstr, hstep⟩ :=
        parse_from_step alloc fuel pre s rest str olds cnt size tl w h0 hstr hall
      rw [hruns, List.length_cons] at hfit
      by_cases hlast : cnt + 1 ≤ 1024
      · obtain ⟨size2, hg, hcap2, hle2⟩ :=
          grow_token_list_ok alloc halloc cnt size hcap hle hlast
        rw [hg] at hstep
        rw [hstep]
        exact ih s2 (pre ++ mid) none (pre ++ mid).length (cnt + 1) size2 _ _ h02 rfl
          (by omega) hcap2 hle2 (by omega)
      · rw [grow_token_list_fatal alloc cnt size hcap hle (by omega)] at hstep
        exact hstep

theorem argv_of_token_list (a : Args) (offs : List Nat)
    (h : a.token_list = offs.map some ++ [none]) : a.argv = offs := by
  unfold Args.argv
  rw [h]
  induction offs with
  | nil => simp
  | cons o offs ih => simp [List.takeWhile_cons, ih]

theorem parse_arguments_eq (alloc : Nat → Bool) (h64 : alloc 64 = true) (input : List Int) :
    parse_arguments alloc input =
      parse_from alloc input.length ([] ++ input) (some 0) 0 0 64 [] [] := by
  unfold parse_arguments parse_from
  rw [if_neg (by simp [TOKEN_BUFFER_MIN, h64])]
  rfl

/-- On a line within the token limit `parse_arguments` returns: its token list
is a sequence of offsets followed by `NULL`, the strings at the offsets are the
runs of the line, and the buffer differs from the line only by terminators
written over delimiters. -/
theorem parse_arguments_ok (alloc : Nat → Bool) (halloc : ∀ n, alloc n = true)
    (line rest : List Int) (h0 : ∀ c ∈ line, c ≠ 0) (hfit : (runs line).length ≤ 1024) :
    ∃ (a : Args) (s' : List Int),
      parse_arguments alloc (line ++ 0 :: rest) = .ok a ∧
      a.token_list = a.argv.map some ++ [none] ∧
      a.input = s' ++ 0 :: rest ∧
      List.Forall₂ overwritten line s' ∧
      a.strings = runs line ∧
      a.token_cnt = a.argv.length ∧
      tcapOK a.token_list_size ∧ a.token_cnt ≤ a.token_list_size := by
  obtain ⟨a, offs, s', ha, htok, hin, hfr, hstrs, hcnt, hc1, hc2⟩ :=
    parse_from_ok alloc halloc rest (line ++ 0 :: rest).length line [] (some 0) 0 0 64 [] []
      h0 rfl (by simp) rfl (Or.inl rfl) (by omega) (by omega)
  have hargv : a.argv = offs := argv_of_token_list a offs (by simpa using htok)
  refine ⟨a, s', ?_, ?_, by simpa using hin, hfr, ?_, ?_, hc1, hc2⟩
  · rw [parse_arguments_eq alloc (halloc 64)]
    exact ha
  · rw [hargv]
    simpa using htok
  · unfold Args.strings
    rw [hargv]
    exact hstrs
  · rw [hargv, hcnt]
    omega

/-! ## Counting the runs of a line -/

theorem countRunsAux_cons (prev : Bool) (c : Int) (cs : List Int) :
    countRunsAux prev (c :: cs) =
      if isDelim c then countRunsAux true cs
      else (if prev then 1 else 0) + countRunsAux false cs := rfl

theorem countRunsAux_delims (ds x : List Int) (hds : ∀ c ∈ ds, isDelim c = true) :
    countRunsAux true (ds ++ x) = countRunsAux true x := by
  induction ds with
  | nil => rfl
  | cons c ds ih =>
    rw [List.cons_append, countRunsAux_cons, if_pos (hds c (by simp)),
      ih (fun b hb => hds b (by simp [hb]))]

theorem countRunsAux_token_false (t x : List Int) (ht : ∀ c ∈ t, isDelim c = false) :
    countRunsAux false (t ++ x) = countRunsAux false x := by
  induction t with
  | nil => rfl
  | cons c t ih =>
    rw [List.cons_append, countRunsAux_cons, if_neg (by simp [ht c (by simp)]),
      ih (fun b hb => ht b (by simp [hb]))]
    simp

theorem countRunsAux_token_true (t x : List Int) (hne : t ≠ [])
    (ht : ∀ c ∈ t, isDelim c = false) :
    countRunsAux true (t ++ x) = 1 + countRunsAux false x := by
  cases t with
  | nil => exact absurd rfl hne
  | cons c t =>
    rw [List.cons_append, countRunsAux_cons, if_neg (by simp [ht c (by simp)]),
      countRunsAux_token_false t x (fun b hb => ht b (by simp [hb]))]
    simp

theorem countRuns_eq_length_runs (line : List Int) : countRuns line = (runs line).length := by
  suffices h : ∀ n (l : List Int), l.length ≤ n → countRunsAux true l = (runs l).length from
    h line.length line (Nat.le_refl _)
  intro n
  induction n with
  | zero =>
    intro l hl
    have : l = [] := List.length_eq_zero.1 (Nat.le_zero.1 hl)
    subst this
    simp [runs_nil, countRunsAux]
  | succ n ih =>
    intro l hl
    rcases line_cases l with hall | ⟨ds, t, hs, hds, hne, ht⟩ | ⟨ds, t, d, x, hs, hds, hne, ht, hd⟩
    · have := countRunsAux_delims l [] hall
      rw [List.append_nil] at this
      rw [this, runs_all_delim l hall]
      rfl
    · subst hs
      have h1 := countRunsAux_token_true t [] hne ht
      rw [List.append_nil] at h1
      rw [countRunsAux_delims ds t hds, h1, runs_delims_append ds t hds,
        runs_token_last t hne ht]
      rfl
    · subst hs
      have hx : x.length ≤ n := by
        simp only [List.length_append, List.length_cons] at hl
        omega
      rw [countRunsAux_delims ds _ hds, countRunsAux_token_true t _ hne ht, countRunsAux_cons,
        if_pos hd, ih x hx, runs_delims_append ds _ hds, runs_token_more t x d hne ht hd,
        List.length_cons]
      omega

theorem runs_ne_nil (line t : List Int) (h : t ∈ runs line) : t ≠ [] := by
  unfold runs at h
  rw [List.mem_filter] at h
  intro h0
  rw [h0] at h
  simp at h

/-! ## Lines used as concrete inputs -/

theorem many_tokens_ne_zero (n : Nat) : ∀ c ∈ many_tokens n, c ≠ 0 := by
  induction n with
  | zero => simp [many_tokens]
  | succ n ih =>
    intro c hc
    simp only [many_tokens, List.mem_cons] at hc
    rcases hc with h | h | h
    · omega
    · omega
    · exact ih c h

theorem runs_many_tokens (n : Nat) : runs (many_tokens n) = List.replicate n [97] := by
  induction n with
  | zero => exact runs_nil
  | succ n ih =>
    have := runs_token_more [97] (many_tokens n) 32 (by simp) (by decide) (by decide)
    simp only [List.singleton_append] at this
    rw [many_tokens, this, ih]
    rfl

/-! ## Claims on `parse_arguments` -/

/-- C1: for every line with at most 1024 tokens, `parse_arguments` returns the
maximal runs of non-delimiter characters of the line, in left-to-right order,
followed by one end marker `NULL`; the delimiters are space, tab, newline and
carriage return. -/
theorem parse_arguments_returns_runs (alloc : Nat → Bool) (halloc : ∀ n, alloc n = true)
    (line rest : List Int) (h0 : ∀ c ∈ line, c ≠ 0)
    (hfit : (runs line).length ≤ TOKEN_BUFFER_MAX) :
    ∃ a, parse_arguments alloc (line ++ 0 :: rest) = .ok a ∧
      a.token_list = a.argv.map some ++ [none] ∧ a.strings = runs line := by
  obtain ⟨a, s', ha, htok, _, _, hstr, _⟩ :=
    parse_arguments_ok alloc halloc line rest h0 hfit
  exact ⟨a, ha, htok, hstr⟩

/-- C1 at the line `echo hello world`: the strings returned are `echo`,
`hello` and `world`. -/
theorem parse_arguments_returns_runs_witness :
    runs echo_hello_world =
      [[101, 99, 104, 111], [104, 101, 108, 108, 111], [119, 111, 114, 108, 100]] ∧
    ∃ a, parse_arguments (fun _ => true) (echo_hello_world ++ 0 :: []) = .ok a ∧
      a.token_list = a.argv.map some ++ [none] ∧ a.strings = runs echo_hello_world :=
  ⟨by decide, parse_arguments_returns_runs (fun _ => true) (fun _ => rfl) echo_hello_world []
    (by decide) (by decide)⟩

/-- C5: a line with exactly 1024 tokens, or fewer, is tokenized with all its
tokens returned, and a line with 1025 tokens or more makes `parse_arguments`
end the program with the argument-limit error. -/
theorem parse_arguments_token_limit (alloc : Nat → Bool) (halloc : ∀ n, alloc n = true)
    (line rest : List Int) (h0 : ∀ c ∈ line, c ≠ 0) :
    ((runs line).length ≤ TOKEN_BUFFER_MAX →
      ∃ a, parse_arguments alloc (line ++ 0 :: rest) = .ok a ∧ a.strings = runs line ∧
        a.argv.length = (runs line).length) ∧
    (TOKEN_BUFFER_MAX + 1 ≤ (runs line).length →
      parse_arguments alloc (line ++ 0 :: rest) = .error Fatal.max_args) := by
  constructor
  · intro hfit
    obtain ⟨a, s', ha, _, _, _, hstr, _⟩ := parse_arguments_ok alloc halloc line rest h0 hfit
    refine ⟨a, ha, hstr, ?_⟩
    rw [← hstr]
    simp [Args.strings]
  · intro hover
    rw [parse_arguments_eq alloc (halloc 64)]
    exact parse_from_fatal alloc halloc rest _ line [] (some 0) 0 0 64 [] [] h0 rfl (by simp)
      (Or.inl rfl) (by omega) (by unfold TOKEN_BUFFER_MAX at hover; omega)

/-- C5 at the limit: the line of 1024 tokens is tokenized, the line of 1025
tokens is fatal. -/
theorem parse_arguments_token_limit_witness :
    (∃ a, parse_arguments (fun _ => true) (many_tokens 1024 ++ 0 :: []) = .ok a ∧
      a.argv.length = 1024) ∧
    parse_arguments (fun _ => true) (many_tokens 1025 ++ 0 :: []) = .error Fatal.max_args := by
  constructor
  · obtain ⟨a, ha, _, hlen⟩ :=
      (parse_arguments_token_limit (fun _ => true) (fun _ => rfl) (many_tokens 1024) []
        (many_tokens_ne_zero 1024)).1
        (by rw [runs_many_tokens, List.length_replicate]; unfold TOKEN_BUFFER_MAX; omega)
    exact ⟨a, ha, by rw [hlen, runs_many_tokens, List.length_replicate]⟩
  · exact (parse_arguments_token_limit (fun _ => true) (fun _ => rfl) (many_tokens 1025) []
      (many_tokens_ne_zero 1025)).2
      (by rw [runs_many_tokens, List.length_replicate]; unfold TOKEN_BUFFER_MAX; omega)

/-- C7: for every line within the token limit, no token that `parse_arguments`
returns is the empty string, and the number of tokens is the number of maximal
non-delimiter runs of the line. -/
theorem parse_arguments_no_empty_token (alloc : Nat → Bool) (halloc : ∀ n, alloc n = true)
    (line rest : List Int) (h0 : ∀ c ∈ line, c ≠ 0)
    (hfit : countRuns line ≤ TOKEN_BUFFER_MAX) :
    ∃ a, parse_arguments alloc (line ++ 0 :: rest) = .ok a ∧
      (∀ t ∈ a.strings, t ≠ []) ∧ a.strings.length = countRuns line := by
  rw [countRuns_eq_length_runs] at hfit ⊢
  obtain ⟨a, s', ha, _, _, _, hstr, _⟩ := parse_arguments_ok alloc halloc line rest h0 hfit
  refine ⟨a, ha, ?_, by rw [hstr]⟩
  intro t ht
  rw [hstr] at ht
  exact runs_ne_nil line t ht

/-- C7 at a line with adjacent delimiters of mixed kinds. -/
theorem parse_arguments_no_empty_token_witness :
    countRuns [32, 9, 97, 98, 13, 10, 32, 99, 9] = 2 ∧
    ∃ a, parse_arguments (fun _ => true) ([32, 9, 97, 98, 13, 10, 32, 99, 9] ++ 0 :: []) = .ok a ∧
      (∀ t ∈ a.strings, t ≠ []) ∧ a.strings.length = countRuns [32, 9, 97, 98, 13, 10, 32, 99, 9] :=
  ⟨by decide, parse_arguments_no_empty_token (fun _ => true) (fun _ => rfl)
    [32, 9, 97, 98, 13, 10, 32, 99, 9] [] (by decide) (by decide)⟩

/-- On a line made of delimiters only the loop of `parse_arguments` is not
entered: the token list holds `NULL` alone and the buffer is unchanged. -/
theorem parse_arguments_of_blank (alloc : Nat → Bool) (h64 : alloc TOKEN_BUFFER_MIN = true)
    (line rest : List Int) (hblank : ∀ c ∈ line, isDelim c = true) :
    parse_arguments alloc (line ++ 0 :: rest) = .ok
      { token_list := [none], token_cnt := 0, token_list_size := TOKEN_BUFFER_MIN,
        writes := [(0, TOKEN_BUFFER_MIN)], input := line ++ 0 :: rest } := by
  have h := parse_from_none alloc (line ++ 0 :: rest).length [] line rest (some 0) 0 0 64 [] []
    rfl hblank
  rw [← parse_arguments_eq alloc h64] at h
  exact h

/-- C9: for every line that is empty or made of delimiters only,
`parse_arguments` returns an argument vector with zero tokens whose first
element is the end marker `NULL`, and leaves the line as it is. -/
theorem parse_arguments_blank_line (alloc : Nat → Bool) (h64 : alloc TOKEN_BUFFER_MIN = true)
    (line rest : List Int) (hblank : ∀ c ∈ line, isDelim c = true) :
    ∃ a, parse_arguments alloc (line ++ 0 :: rest) = .ok a ∧ a.token_list = [none] ∧
      a.token_list.head? = some none ∧ a.token_cnt = 0 ∧ a.argv = [] ∧
      a.input = line ++ 0 :: rest :=
  ⟨_, parse_arguments_of_blank alloc h64 line rest hblank, rfl, rfl, rfl, rfl, rfl⟩

/-- C9 at the line of three spaces. -/
theorem parse_arguments_blank_line_witness :
    ∃ a, parse_arguments (fun _ => true) ([32, 32, 32] ++ 0 :: []) = .ok a ∧
      a.token_list = [none] ∧ a.token_list.head? = some none ∧ a.token_cnt = 0 ∧ a.argv = [] ∧
      a.input = [32, 32, 32] ++ 0 :: [] :=
  parse_arguments_blank_line (fun _ => true) rfl [32, 32, 32] [] (by decide)

/-! ## Joining the tokens and collapsing the delimiters -/

theorem collapseAux_cons (prev : Bool) (c : Int) (cs : List Int) :
    collapseAux prev (c :: cs) =
      if isDelim c then (if prev then collapseAux true cs else 32 :: collapseAux true cs)
      else c :: collapseAux false cs := rfl

theorem joinSp_cons_cons (t r : List Int) (rs : List (List Int)) :
    joinSp (t :: r :: rs) = t ++ 32 :: joinSp (r :: rs) := rfl

theorem collapseAux_delims (ds x : List Int) (hds : ∀ c ∈ ds, isDelim c = true) :
    collapseAux true (ds ++ x) = collapseAux true x := by
  induction ds with
  | nil => rfl
  | cons c ds ih =>
    rw [List.cons_append, collapseAux_cons, if_pos (hds c (by simp)), if_pos rfl,
      ih (fun b hb => hds b (by simp [hb]))]

theorem collapseAux_token (prev : Bool) (t x : List Int) (ht : ∀ c ∈ t, isDelim c = false) (hne : t ≠ []) :
    collapseAux prev (t ++ x) = t ++ collapseAux false x := by
  induction t generalizing prev with
  | nil => exact absurd rfl hne
  | cons c t ih =>
    rw [List.cons_append, collapseAux_cons, if_neg (by simp [ht c (by simp)])]
    cases t with
    | nil => rfl
    | cons c2 t2 =>
      rw [ih false (fun b hb => ht b (by simp [hb])) (by simp)]
      rfl

/-- The collapsed form without its leading separator. -/
theorem stripLead_collapse (line : List Int) :
    stripLead (collapse line) = collapseAux true line := by
  unfold collapse stripLead
  cases line with
  | nil => rfl
  | cons c cs =>
    rw [collapseAux_cons, collapseAux_cons]
    by_cases hc : isDelim c = true
    · rw [if_pos hc, if_pos hc]
      simp
    · rw [if_neg hc, if_neg hc]
      have : c ≠ 32 := fun h => hc (by rw [h]; rfl)
      simp [this]

theorem getLast?_token (t : List Int) (ht : ∀ c ∈ t, isDelim c = false) :
    t.getLast? ≠ some 32 := by
  intro h
  have hm : (32 : Int) ∈ t := List.mem_of_getLast?_eq_some h
  have := ht 32 hm
  revert this
  decide

theorem runs_eq_nil_imp (x : List Int) (h : runs x = []) : ∀ c ∈ x, isDelim c = true := by
  rcases line_cases x with hall | ⟨ds, t, hs, hds, hne, ht⟩ | ⟨ds, t, d, y, hs, hds, hne, ht, hd⟩
  · exact hall
  · rw [hs, runs_delims_append ds t hds, runs_token_last t hne ht] at h
    exact absurd h (by simp)
  · rw [hs, runs_delims_append ds _ hds, runs_token_more t y d hne ht hd] at h
    exact absurd h (by simp)

/-- The collapsed form without its leading separator is the join of the runs,
followed by one separator when delimiters end the line after a token. -/
theorem collapseAux_eq_joinSp (line : List Int) :
    (collapseAux true line = joinSp (runs line) ∨
      collapseAux true line = joinSp (runs line) ++ [32]) ∧
    (joinSp (runs line)).getLast? ≠ some 32 := by
  suffices h : ∀ n (l : List Int), l.length ≤ n →
      (collapseAux true l = joinSp (runs l) ∨ collapseAux true l = joinSp (runs l) ++ [32]) ∧
      (joinSp (runs l)).getLast? ≠ some 32 from h line.length line (Nat.le_refl _)
  intro n
  induction n with
  | zero =>
    intro l hl
    have : l = [] := List.length_eq_zero.1 (Nat.le_zero.1 hl)
    subst this
    rw [runs_nil]
    exact ⟨Or.inl rfl, by simp [joinSp]⟩
  | succ n ih =>
    intro l hl
    rcases line_cases l with hall | ⟨ds, t, hs, hds, hne, ht⟩ | ⟨ds, t, d, x, hs, hds, hne, ht, hd⟩
    · have h1 := collapseAux_delims l [] hall
      rw [List.append_nil] at h1
      rw [h1, runs_all_delim l hall]
      exact ⟨Or.inl rfl, by simp [joinSp]⟩
    · subst hs
      have h1 := collapseAux_token true t [] ht hne
      rw [List.append_nil] at h1
      rw [collapseAux_delims ds t hds, h1, runs_delims_append ds t hds,
        runs_token_last t hne ht]
      exact ⟨Or.inl (by simp [joinSp, collapseAux]), by simpa [joinSp] using getLast?_token t ht⟩
    · subst hs
      have hx : x.length ≤ n := by
        simp only [List.length_append, List.length_cons] at hl
        omega
      obtain ⟨ih1, ih2⟩ := ih x hx
      rw [collapseAux_delims ds _ hds, collapseAux_token true t _ ht hne, collapseAux_cons,
        if_pos hd, if_neg (by simp), runs_delims_append ds _ hds,
        runs_token_more t x d hne ht hd]
      cases hr : runs x with
      | nil =>
        have hxd := runs_eq_nil_imp x hr
        have h2 := collapseAux_delims x [] hxd
        rw [List.append_nil] at h2
        rw [h2]
        exact ⟨Or.inr (by simp [joinSp, collapseAux]), by simpa [joinSp] using getLast?_token t ht⟩
      | cons r rs =>
        rw [hr] at ih1 ih2
        rw [joinSp_cons_cons]
        have hjne : joinSp (r :: rs) ≠ [] := by
          have hrne : r ≠ [] := runs_ne_nil x r (by rw [hr]; simp)
          cases rs with
          | nil => simpa [joinSp] using hrne
          | cons r2 rs2 =>
            rw [joinSp_cons_cons]
            cases r <;> simp
        refine ⟨?_, ?_⟩
        · rcases ih1 with h | h
          · exact Or.inl (by rw [h])
          · exact Or.inr (by rw [h]; simp)
        · rw [List.getLast?_append_of_ne_nil _ (by simp)]
          obtain ⟨c, j, hj⟩ := List.exists_cons_of_ne_nil hjne
          rw [hj] at ih2 ⊢
          rw [List.getLast?_cons_cons]
          exact ih2

/-- C8 as stated fails on the line made of a space and the letter `a`: the
tokens joined give `a`, the delimiter-collapsed form keeps one separator in
front of it. -/
theorem join_tokens_ne_collapse_leading_space :
    (parse_arguments (fun _ => true) [32, 97, 0]).map
      (fun a => (joinSp a.strings, collapse [32, 97])) = .ok ([97], [32, 97]) := by
  decide

/-- C8, amended: for every line within the token limit, the tokens that
`parse_arguments` returns, joined with single spaces, are the line's
delimiter-collapsed form without the separator at its very start and at its
very end, when it has one there. -/
theorem join_tokens_eq_trimmed_collapse (alloc : Nat → Bool) (halloc : ∀ n, alloc n = true)
    (line rest : List Int) (h0 : ∀ c ∈ line, c ≠ 0)
    (hfit : (runs line).length ≤ TOKEN_BUFFER_MAX) :
    ∃ a, parse_arguments alloc (line ++ 0 :: rest) = .ok a ∧
      joinSp a.strings = stripTrail (stripLead (collapse line)) := by
  obtain ⟨a, s', ha, _, _, _, hstr, _⟩ := parse_arguments_ok alloc halloc line rest h0 hfit
  refine ⟨a, ha, ?_⟩
  rw [hstr, stripLead_collapse]
  obtain ⟨h1, h2⟩ := collapseAux_eq_joinSp line
  unfold stripTrail
  rcases h1 with h | h
  · rw [h, if_neg h2]
  · rw [h, if_pos (by simp), List.dropLast_concat]

/-- C8, amended, at a line with delimiters of mixed kinds in front, inside and
at the end. -/
theorem join_tokens_eq_trimmed_collapse_witness :
    stripTrail (stripLead (collapse [9, 32, 97, 98, 13, 10, 99, 32])) = [97, 98, 32, 99] ∧
    ∃ a, parse_arguments (fun _ => true) ([9, 32, 97, 98, 13, 10, 99, 32] ++ 0 :: []) = .ok a ∧
      joinSp a.strings = stripTrail (stripLead (collapse [9, 32, 97, 98, 13, 10, 99, 32])) :=
  ⟨by decide, join_tokens_eq_trimmed_collapse (fun _ => true) (fun _ => rfl)
    [9, 32, 97, 98, 13, 10, 99, 32] [] (by decide) (by decide)⟩

/-! ## Claims on `read_input` -/

/-- A line of at most 32768 bytes, none of which narrows to `EOF` or is a
newline, is returned by `read_input` with its terminator, and the capacity
stays within the maximum. -/
theorem read_input_ok (alloc : Nat → Bool) (halloc : ∀ n, alloc n = true)
    (line suffix : List Nat) (hplain : ∀ b ∈ line, charOf b ≠ EOF ∧ charOf b ≠ 10)
    (hsuf : suffix = [] ∨ ∃ b r, suffix = b :: r ∧ (charOf b = EOF ∨ charOf b = 10))
    (hlen : line.length ≤ 32768) :
    ∃ cap w, capOK cap ∧ line.length ≤ cap ∧
      read_input alloc (line ++ suffix) = .ok
        { input := line.map charOf ++ [0]
          input_cnt := line.length
          input_buf_size := cap
          writes := w
          stdin := suffix.tail } := by
  obtain ⟨cap, w, h1, h2, h3⟩ := read_loop_ok alloc halloc suffix hsuf line
    { input_cnt := 0, input_buf_size := INPUT_BUFFER_MIN, input := [], writes := [] }
    hplain rfl (Or.inl rfl) (Nat.zero_le _) (by simpa using hlen)
  refine ⟨cap, w, h1, by simpa using h2, ?_⟩
  unfold read_input
  rw [if_neg (by simp [halloc]), h3]
  simp

/-- C2: the code on the input bytes `0xFF`, `a`, newline. The first line has
two characters, and `read_input` returns the empty line, leaving `a` and the
newline unread: the byte `0xFF` narrowed to `char` equals `EOF`. -/
theorem read_input_byte_255_ends_line :
    (read_input (fun _ => true) [255, 97, 10]).map (fun l => (l.input, l.stdin)) =
      .ok ([0], [97, 10]) := by
  decide

/-- C3: the code on a line of 64 letters and a newline. The terminator is
stored at index 64 while the capacity of the buffer is 64. -/
theorem read_input_terminator_at_capacity :
    (read_input (fun _ => true) (List.replicate 64 97 ++ [10])).map
      (fun l => (l.input_cnt, l.input_buf_size, l.writes.getLast?)) =
      .ok (64, 64, some (64, 64)) := by
  decide

theorem read_input_letters (n : Nat) (hn : n ≤ 32768) :
    ∃ l, read_input (fun _ => true) (List.replicate n 97 ++ [10]) = .ok l ∧
      l.input = List.replicate n 97 ++ [0] ∧ l.input_cnt = n ∧
      l.input_buf_size ≤ INPUT_BUFFER_MAX ∧ l.input.length = n + 1 := by
  obtain ⟨cap, w, h1, h2, h3⟩ := read_input_ok (fun _ => true) (fun _ => rfl)
    (List.replicate n 97) [10]
    (fun b hb => by rw [List.eq_of_mem_replicate hb]; decide)
    (Or.inr ⟨10, [], rfl, Or.inr (by decide)⟩) (by rw [List.length_replicate]; exact hn)
  have h97 : charOf 97 = 97 := by decide
  rw [List.map_replicate, h97, List.length_replicate] at h3
  refine ⟨_, h3, rfl, rfl, ?_, ?_⟩
  · unfold capOK at h1
    unfold INPUT_BUFFER_MAX
    show cap ≤ 32768
    omega
  · show (List.replicate n (97 : Int) ++ [0]).length = n + 1
    rw [List.length_append, List.length_replicate, List.length_singleton]

/-- C6: the code on a line of 32768 letters and a newline. The line with its
terminator takes 32769 cells, more than the maximum buffer size, and
`read_input` returns it instead of ending the program. -/
theorem read_input_returns_line_of_32768 :
    ∃ l, read_input (fun _ => true) (List.replicate 32768 97 ++ [10]) = .ok l ∧
      l.input = List.replicate 32768 97 ++ [0] ∧ l.input_cnt = 32768 ∧
      l.input_buf_size ≤ INPUT_BUFFER_MAX ∧ l.input.length = 32768 + 1 :=
  read_input_letters 32768 (Nat.le_refl _)

/-! ## Claims on `run_command` and `main` -/

/-- C4: the code when the first status `waitpid` reports is Stopped. The
parent returns to its caller after that one query, the last status it observed
being Stopped, although the child exits only later. -/
theorem run_command_returns_on_stopped :
    run_command [some 0, none]
      { c_pid := 7, execvp := fun _ => none,
        waits := [some (.stopped 19), some (.exited 0)] } = .returned [.stopped 19] := by
  decide

/-- C10 as stated fails on the input `ls` that ends without a newline: after
the end of input the loop of `main` is still running, it has written the prompt
twice more and called `run_command` twice more, with no arguments. -/
theorem main_does_not_end_at_end_of_input :
    main (fun _ => true)
      (fun _ => { c_pid := 7, execvp := fun _ => none, waits := [some (.exited 0)] })
      3 [108, 115] =
    { out := [.prompt, .run [[108, 115]], .prompt, .run [], .prompt, .run []], stdin := [],
      ending := .in_loop } := by
  decide

theorem main_loop_succ (alloc : Nat → Bool) (sys : Nat → Sys) (n i : Nat) (stdin : List Nat)
    (out : List Event) (command : Line) (argument_list : Args) (seen : List WStatus)
    (h1 : read_input alloc stdin = .ok command)
    (h2 : parse_arguments alloc command.input = .ok argument_list)
    (h3 : run_command argument_list.token_list (sys i) = .returned seen) :
    main_loop alloc sys (n + 1) i stdin out =
      main_loop alloc sys n (i + 1) command.stdin
        (out ++ [.prompt, .run argument_list.strings]) := by
  simp only [main_loop, h1, h2, h3]

theorem read_input_nil (alloc : Nat → Bool) (h64 : alloc INPUT_BUFFER_MIN = true) :
    read_input alloc [] = .ok
      { input := [0], input_cnt := 0, input_buf_size := INPUT_BUFFER_MIN,
        writes := [(0, INPUT_BUFFER_MIN)], stdin := [] } := by
  unfold read_input
  rw [if_neg (by simp [h64])]
  rfl

/-- Once the input is exhausted, every iteration of the loop of `main` writes
the prompt and calls `run_command` with no arguments. -/
theorem main_loop_after_eof (alloc : Nat → Bool) (halloc : ∀ n, alloc n = true)
    (sys : Nat → Sys) (hsys : ∀ i args, ∃ seen, run_command args (sys i) = .returned seen) :
    ∀ (n i : Nat) (out : List Event),
      main_loop alloc sys n i [] out =
        { out := out ++ (List.replicate n [Event.prompt, Event.run []]).flatten, stdin := [],
          ending := .in_loop } := by
  intro n
  induction n with
  | zero =>
    intro i out
    simp [main_loop]
  | succ n ih =>
    intro i out
    have ha := parse_arguments_of_blank alloc (halloc _) [] [] (by simp)
    obtain ⟨seen, hseen⟩ := hsys i [none]
    rw [main_loop_succ alloc sys n i [] out _ _ seen (read_input_nil alloc (halloc _)) ha hseen,
      ih]
    simp [List.replicate_succ, Args.strings, Args.argv]

theorem read_loop_newline_eq (alloc : Nat → Bool) :
    ∀ (l : List Nat) (st : InputState), (∀ b ∈ l, charOf b ≠ EOF ∧ charOf b ≠ 10) →
      read_loop alloc (l ++ [10]) st = read_loop alloc l st := by
  intro l
  induction l with
  | nil =>
    intro st _
    rw [List.nil_append, read_loop_cons, if_pos (Or.inr (by decide))]
    rfl
  | cons a l ih =>
    intro st hpl
    have ha := hpl a (by simp)
    have ha2 : ¬ (charOf a = EOF ∨ charOf a = 10) := fun h => h.elim ha.1 ha.2
    have hpl2 : ∀ b ∈ l, charOf b ≠ EOF ∧ charOf b ≠ 10 := fun b hb => hpl b (by simp [hb])
    rw [List.cons_append, read_loop_cons, read_loop_cons, if_neg ha2, if_neg ha2,
      ih _ hpl2, ih _ hpl2]

/-- C10, amended: when the end of input is reached with no trailing newline,
`read_input` returns the characters accumulated so far, exactly what it returns
for the same line ended by a newline, so the caller gets no sign that the input
has ended; and the loop of `main` does not end there: as long as every
`run_command` returns, each further iteration writes the prompt and calls
`run_command` with no arguments. -/
theorem read_input_eof_like_newline_and_main_goes_on (alloc : Nat → Bool)
    (halloc : ∀ n, alloc n = true) (sys : Nat → Sys)
    (hsys : ∀ i args, ∃ seen, run_command args (sys i) = .returned seen)
    (line : List Nat) (hplain : ∀ b ∈ line, charOf b ≠ EOF ∧ charOf b ≠ 10)
    (hlen : line.length ≤ INPUT_BUFFER_MAX) (n i : Nat) (out : List Event) :
    (∃ l, read_input alloc line = .ok l ∧ read_input alloc (line ++ [10]) = .ok l ∧
      l.input = line.map charOf ++ [0] ∧ l.stdin = []) ∧
    main_loop alloc sys n i [] out =
      { out := out ++ (List.replicate n [Event.prompt, Event.run []]).flatten, stdin := [],
        ending := .in_loop } := by
  refine ⟨?_, main_loop_after_eof alloc halloc sys hsys n i out⟩
  obtain ⟨cap, w, _, _, h3⟩ := read_input_ok alloc halloc line [] hplain (Or.inl rfl) hlen
  rw [List.append_nil] at h3
  refine ⟨_, h3, ?_, rfl, rfl⟩
  rw [← h3]
  unfold read_input
  rw [read_loop_newline_eq alloc line _ hplain]

/-- C10, amended, at the input `ls` that ends without a newline, with a child
that exits at once. -/
theorem read_input_eof_like_newline_and_main_goes_on_witness :
    (∃ l, read_input (fun _ => true) [108, 115] = .ok l ∧
      read_input (fun _ => true) ([108, 115] ++ [10]) = .ok l ∧
      l.input = [108, 115].map charOf ++ [0] ∧ l.stdin = []) ∧
    main_loop (fun _ => true) (fun _ => child_exits_at_once) 2 1 [] [.prompt, .run [[108, 115]]] =
      { out := [.prompt, .run [[108, 115]]] ++
          (List.replicate 2 [Event.prompt, Event.run []]).flatten,
        stdin := [], ending := .in_loop } :=
  read_input_eof_like_newline_and_main_goes_on (fun _ => true) (fun _ => rfl)
    (fun _ => child_exits_at_once) (fun _ _ => ⟨[.exited 0], rfl⟩) [108, 115] (by decide)
    (by decide) 2 1 [.prompt, .run [[108, 115]]]

/-! ## Further claims on `run_command` -/

theorem wait_loop_some (status : WStatus) (rest : List (Option WStatus)) (seen : List WStatus) :
    wait_loop (some status :: rest) seen = .returned (seen ++ [status]) := by
  cases status <;> rfl

theorem run_command_parent (arguments : List (Option Nat)) (sys : Sys) (h : 0 < sys.c_pid) :
    run_command arguments sys = wait_loop sys.waits [] := by
  unfold run_command
  rw [if_neg (by omega), if_neg (by omega)]

/-- C11: when the replacement of the program fails (`execvp` returns `-1`), the
child ends itself with a failure exit status and does not return to its caller;
and the parent, on observing the status Exited, with a non-zero code as with
any code, returns to the loop and does not end the program. -/
theorem exec_failure_is_command_local (arguments : List (Option Nat)) (child parent : Sys)
    (code : Nat) (rest : List (Option WStatus))
    (hchild : child.c_pid = 0) (hexec : child.execvp arguments = some (-1))
    (hparent : 0 < parent.c_pid) (hwait : parent.waits = some (.exited code) :: rest) :
    run_command arguments child = .child_exit_failure ∧
    run_command arguments parent = .returned [.exited code] := by
  constructor
  · unfold run_command
    rw [if_pos hchild, hexec]
    rfl
  · rw [run_command_parent arguments parent hparent, hwait, wait_loop_some]
    rfl

/-- C11 at the argument vector of an unknown program: the child exits with a
failure status, the parent sees Exited with code 1 and returns. -/
theorem exec_failure_is_command_local_witness :
    run_command [some 0, none]
      { c_pid := 0, execvp := fun _ => some (-1), waits := [] } = .child_exit_failure ∧
    run_command [some 0, none]
      { c_pid := 7, execvp := fun _ => some (-1), waits := [some (.exited 1)] } =
      .returned [.exited 1] :=
  exec_failure_is_command_local [some 0, none]
    { c_pid := 0, execvp := fun _ => some (-1), waits := [] }
    { c_pid := 7, execvp := fun _ => some (-1), waits := [some (.exited 1)] } 1 []
    rfl rfl (by decide) rfl

/-- C12: `run_command` ends the whole program with a failure status exactly
when `fork` fails, or when, in the parent, the status query `waitpid` fails. -/
theorem run_command_fatal_iff (arguments : List (Option Nat)) (sys : Sys) (e : Fatal) :
    run_command arguments sys = .fatal e ↔
      (sys.c_pid < 0 ∧ e = Fatal.fork_failed) ∨
      (0 < sys.c_pid ∧ e = Fatal.waitpid_failed ∧ ∃ rest, sys.waits = none :: rest) := by
  unfold run_command
  by_cases h0 : sys.c_pid = 0
  · rw [if_pos h0]
    constructor
    · intro h
      cases hx : sys.execvp arguments with
      | none => rw [hx] at h; cases h
      | some ret =>
        rw [hx] at h
        by_cases hr : ret = -1
        · simp [hr] at h
        · simp [hr] at h
    · intro h
      omega
  · rw [if_neg h0]
    by_cases hneg : sys.c_pid < 0
    · rw [if_pos hneg]
      constructor
      · intro h
        injection h with h
        exact Or.inl ⟨hneg, h.symm⟩
      · intro h
        rcases h with ⟨_, h⟩ | ⟨h, _⟩
        · rw [h]
        · omega
    · rw [if_neg hneg]
      have hpos : 0 < sys.c_pid := by omega
      constructor
      · intro h
        cases hw : sys.waits with
        | nil => rw [hw] at h; cases h
        | cons w rest =>
          rw [hw] at h
          cases w with
          | none =>
            injection h with h
            exact Or.inr ⟨hpos, h.symm, rest, rfl⟩
          | some st => rw [wait_loop_some] at h; cases h
      · intro h
        rcases h with ⟨h, _⟩ | ⟨_, he, rest, hw⟩
        · omega
        · rw [hw, he]
          rfl

/-- C16: in the parent, whatever the first successful `waitpid` reports, and
whatever the child would report later, `run_command` returns to its caller
after that one query: the body of the loop is not run a second time. -/
theorem run_command_queries_once (arguments : List (Option Nat)) (sys : Sys)
    (status : WStatus) (rest : List (Option WStatus))
    (hparent : 0 < sys.c_pid) (hwait : sys.waits = some status :: rest) :
    run_command arguments sys = .returned [status] := by
  rw [run_command_parent arguments sys hparent, hwait, wait_loop_some]
  rfl

/-- C16 at a child that reports a status that is none of exited, signaled and
stopped, and would exit afterwards. -/
theorem run_command_queries_once_witness :
    run_command [some 0, none]
      { c_pid := 7, execvp := fun _ => none, waits := [some .other, some (.exited 0)] } =
      .returned [.other] :=
  run_command_queries_once [some 0, none]
    { c_pid := 7, execvp := fun _ => none, waits := [some .other, some (.exited 0)] }
    .other [some (.exited 0)] (by decide) rfl

/-! ## Further claims on `read_input` and `main` -/

/-- C17: the code on the input bytes `a`, `0xFF`, `b`, newline. The byte `0xFF`
is not stored: it ends the line after `a`, and `b` with the newline is left for
the next call. -/
theorem read_input_byte_255_not_stored :
    (read_input (fun _ => true) [97, 255, 98, 10]).map (fun l => (l.input, l.stdin)) =
      .ok ([97, 0], [98, 10]) := by
  decide

/-- C13: the code on the one line `a`, `0xFF`, `b` ended by a newline. The
first `read_input` call consumes only a part of the line, and `main` launches
two commands, `a` and `b`, where `parse_arguments` on the line yields one. -/
theorem main_splits_line_at_byte_255 :
    main (fun _ => true) (fun _ => child_exits_at_once) 2 [97, 255, 98, 10] =
      { out := [.prompt, .run [[97]], .prompt, .run [[98]]], stdin := [],
        ending := .in_loop } ∧
    (parse_arguments (fun _ => true) ([97, 255, 98].map charOf ++ [0])).map Args.strings =
      .ok [[97, -1, 98]] := by
  decide

/-! ## Where the tokens start -/

theorem runStartsAux_cons (prev : Bool) (i : Nat) (c : Int) (cs : List Int) :
    runStartsAux prev i (c :: cs) =
      if isDelim c then runStartsAux true (i + 1) cs
      else (if prev then [i] else []) ++ runStartsAux false (i + 1) cs := rfl

theorem runStartsAux_delims (ds x : List Int) (hds : ∀ c ∈ ds, isDelim c = true) :
    ∀ b, runStartsAux true b (ds ++ x) = runStartsAux true (b + ds.length) x := by
  induction ds with
  | nil => intro b; rfl
  | cons c ds ih =>
    intro b
    rw [List.cons_append, runStartsAux_cons, if_pos (hds c (by simp)),
      ih (fun a ha => hds a (by simp [ha])), List.length_cons]
    congr 1
    omega

theorem runStartsAux_token_false (t x : List Int) (ht : ∀ c ∈ t, isDelim c = false) :
    ∀ b, runStartsAux false b (t ++ x) = runStartsAux false (b + t.length) x := by
  induction t with
  | nil => intro b; rfl
  | cons c t ih =>
    intro b
    rw [List.cons_append, runStartsAux_cons, if_neg (by simp [ht c (by simp)]),
      ih (fun a ha => ht a (by simp [ha])), List.length_cons]
    simp only [Bool.false_eq_true, if_false, List.nil_append]
    congr 1
    omega

theorem runStartsAux_token_true (t x : List Int) (hne : t ≠ [])
    (ht : ∀ c ∈ t, isDelim c = false) (b : Nat) :
    runStartsAux true b (t ++ x) = b :: runStartsAux false (b + t.length) x := by
  cases t with
  | nil => exact absurd rfl hne
  | cons c t =>
    rw [List.cons_append, runStartsAux_cons, if_neg (by simp [ht c (by simp)]),
      runStartsAux_token_false t x (fun a ha => ht a (by simp [ha])), List.length_cons]
    simp only [if_true, List.singleton_append]
    congr 2
    omega

/-- One iteration of the loop when a token is left in the line, with the offset
of the token: the first run start of the rest `s` of the line, the later run
starts being those of the rest `s2` after the token. -/
theorem parse_from_step_offsets (alloc : Nat → Bool) (fuel : Nat) (pre s rest : List Int)
    (str : Option Nat) (olds cnt size : Nat) (tl : List (Option Nat)) (w : List (Nat × Nat))
    (h0 : ∀ c ∈ s, c ≠ 0) (hstr : str.getD olds = pre.length)
    (hnot : ¬ ∀ c ∈ s, isDelim c = true) :
    ∃ (k : Nat) (mid s2 : List Int),
      (runs s).length = (runs s2).length + 1 ∧ s2.length < s.length ∧ (∀ c ∈ s2, c ≠ 0) ∧
      (∀ b, runStartsAux true b s = (b + k) :: runStartsAux true (b + mid.length) s2) ∧
      parse_from alloc (fuel + 1) (pre ++ (s ++ 0 :: rest)) str olds cnt size tl w =
        match grow_token_list alloc (cnt + 1) size with
        | .error e => .error e
        | .ok size2 => parse_from alloc fuel ((pre ++ mid) ++ (s2 ++ 0 :: rest)) none
            (pre ++ mid).length (cnt + 1) size2 (store none tl cnt (some (pre.length + k)))
            (w ++ [(cnt, size)]) := by
  rcases line_cases s with hall | ⟨ds, t, hs, hds, hne, ht⟩ | ⟨ds, t, d, x, hs, hds, hne, ht, hd⟩
  · exact absurd hall hnot
  · subst hs
    have ht0 : ∀ c ∈ t, c ≠ 0 := fun c hc => h0 c (by simp [hc])
    refine ⟨ds.length, ds ++ t, [], ?_, ?_, by simp, ?_, ?_⟩
    · rw [runs_delims_append ds t hds, runs_token_last t hne ht, runs_nil]
      rfl
    · cases t with
      | nil => exact absurd rfl hne
      | cons c t => simp
    · intro b
      have h1 := runStartsAux_token_true t [] hne ht (b + ds.length)
      rw [List.append_nil] at h1
      rw [runStartsAux_delims ds t hds, h1]
      rfl
    · unfold parse_from
      have e1 : pre ++ ((ds ++ t) ++ 0 :: rest) = pre ++ (ds ++ (t ++ 0 :: rest)) := by simp
      have e2 : (pre ++ (ds ++ t)) ++ ([] ++ 0 :: rest) = pre ++ (ds ++ (t ++ 0 :: rest)) := by
        simp
      rw [e1, strtok_last pre ds t rest str olds hstr hds hne (fun c hc => ⟨ht0 c hc, ht c hc⟩),
        parse_loop_some, e2]
      simp only [List.length_append, parse_from]
  · subst hs
    have ht0 : ∀ c ∈ t, c ≠ 0 := fun c hc => h0 c (by simp [hc])
    refine ⟨ds.length, ds ++ (t ++ [0]), x, ?_, ?_, fun c hc => h0 c (by simp [hc]), ?_, ?_⟩
    · rw [runs_delims_append ds _ hds, runs_token_more t x d hne ht hd]
      rfl
    · simp
      omega
    · intro b
      rw [runStartsAux_delims ds _ hds, runStartsAux_token_true t _ hne ht, runStartsAux_cons,
        if_pos hd]
      simp only [List.length_append, List.length_singleton, Nat.add_assoc]
    · unfold parse_from
      have e1 : pre ++ ((ds ++ (t ++ d :: x)) ++ 0 :: rest) =
          pre ++ (ds ++ (t ++ d :: (x ++ 0 :: rest))) := by simp
      have e2 : (pre ++ (ds ++ (t ++ [0]))) ++ (x ++ 0 :: rest) =
          pre ++ (ds ++ (t ++ 0 :: (x ++ 0 :: rest))) := by simp
      rw [e1, strtok_more pre ds t _ d str olds hstr hds hne
        (fun c hc => ⟨ht0 c hc, ht c hc⟩) hd, parse_loop_some, e2]
      simp only [List.length_append, parse_from, List.length_singleton, Nat.add_assoc]

/-- The tokens that the loop of `parse_arguments` stores are the offsets at
which the runs of the line start. -/
theorem parse_from_offsets (alloc : Nat → Bool) (halloc : ∀ n, alloc n = true)
    (rest : List Int) :
    ∀ (fuel : Nat) (s pre : List Int) (str : Option Nat) (olds cnt size : Nat)
      (tl : List (Option Nat)) (w : List (Nat × Nat)),
      (∀ c ∈ s, c ≠ 0) → str.getD olds = pre.length → s.length ≤ fuel → tl.length = cnt →
      tcapOK size → cnt ≤ size → cnt + (runs s).length ≤ 1024 →
      ∃ (a : Args),
        parse_from alloc fuel (pre ++ (s ++ 0 :: rest)) str olds cnt size tl w = .ok a ∧
        a.token_list = tl ++ (runStartsAux true pre.length s).map some ++ [none] := by
  intro fuel
  induction fuel with
  | zero =>
    intro s pre str olds cnt size tl w h0 hstr hfuel htl hcap hle _
    have hs : s = [] := List.length_eq_zero.1 (Nat.le_zero.1 hfuel)
    subst hs
    refine ⟨_, parse_from_none alloc 0 pre [] rest str olds cnt size tl w hstr (by simp), ?_⟩
    simp [← htl, store_length_eq, runStartsAux]
  | succ fuel ih =>
    intro s pre str olds cnt size tl w h0 hstr hfuel htl hcap hle hfit
    by_cases hall : ∀ c ∈ s, isDelim c = true
    · refine ⟨_, parse_from_none alloc _ pre s rest str olds cnt size tl w hstr hall, ?_⟩
      have h1 := runStartsAux_delims s [] hall pre.length
      rw [List.append_nil] at h1
      simp [← htl, store_length_eq, h1, runStartsAux]
    · obtain ⟨k, mid, s2, hruns, hlen, h02, hstarts, hstep⟩ :=
        parse_from_step_offsets alloc fuel pre s rest str olds cnt size tl w h0 hstr hall
      obtain ⟨size2, hg, hcap2, hle2⟩ :=
        grow_token_list_ok alloc halloc cnt size hcap hle (by omega)
      rw [hg] at hstep
      obtain ⟨a, ha, htok⟩ :=
        ih s2 (pre ++ mid) none (pre ++ mid).length (cnt + 1) size2
          (store none tl cnt (some (pre.length + k))) (w ++ [(cnt, size)]) h02 rfl (by omega)
          (by rw [← htl, store_length_eq, List.length_append, List.length_singleton])
          hcap2 hle2 (by omega)
      refine ⟨a, hstep.trans ha, ?_⟩
      rw [htok, ← htl, store_length_eq, hstarts, List.length_append]
      simp

/-- The runs of a line lie in the line at the offsets `runStarts` lists. -/
theorem runs_at_runStarts (line : List Int) :
    List.Forall₂ (fun p t => (line.drop p).take t.length = t) (runStarts line) (runs line) := by
  suffices h : ∀ n (s pre : List Int), s.length ≤ n →
      List.Forall₂ (fun p t => ((pre ++ s).drop p).take t.length = t)
        (runStartsAux true pre.length s) (runs s) from by
    simpa [runStarts] using h line.length line [] (Nat.le_refl _)
  intro n
  induction n with
  | zero =>
    intro s pre hs
    have : s = [] := List.length_eq_zero.1 (Nat.le_zero.1 hs)
    subst this
    rw [runs_nil]
    exact List.Forall₂.nil
  | succ n ih =>
    intro s pre hs
    rcases line_cases s with hall | ⟨ds, t, hs2, hds, hne, ht⟩ | ⟨ds, t, d, x, hs2, hds, hne, ht, hd⟩
    · have h1 := runStartsAux_delims s [] hall pre.length
      rw [List.append_nil] at h1
      rw [h1, runs_all_delim s hall]
      exact List.Forall₂.nil
    · subst hs2
      have h1 := runStartsAux_token_true t [] hne ht (pre.length + ds.length)
      rw [List.append_nil] at h1
      rw [runStartsAux_delims ds t hds, h1, runs_delims_append ds t hds,
        runs_token_last t hne ht]
      refine List.Forall₂.cons ?_ List.Forall₂.nil
      have e : pre ++ (ds ++ t) = (pre ++ ds) ++ t := by simp
      rw [e, ← List.length_append, List.drop_left]
      simp
    · subst hs2
      have hx : x.length ≤ n := by
        simp only [List.length_append, List.length_cons] at hs
        omega
      rw [runStartsAux_delims ds _ hds, runStartsAux_token_true t _ hne ht, runStartsAux_cons,
        if_pos hd, runs_delims_append ds _ hds, runs_token_more t x d hne ht hd]
      refine List.Forall₂.cons ?_ ?_
      · have e : pre ++ (ds ++ (t ++ d :: x)) = (pre ++ ds) ++ (t ++ d :: x) := by simp
        rw [e, ← List.length_append, List.drop_left]
        simp
      · have := ih x (pre ++ (ds ++ (t ++ [d]))) hx
        have e : (pre ++ (ds ++ (t ++ [d]))) ++ x = pre ++ (ds ++ (t ++ d :: x)) := by simp
        rw [e] at this
        simpa [Nat.add_assoc] using this

theorem forall₂_and {α β : Type} {P Q : α → β → Prop} :
    ∀ {l1 : List α} {l2 : List β}, List.Forall₂ P l1 l2 → List.Forall₂ Q l1 l2 →
      List.Forall₂ (fun a b => P a b ∧ Q a b) l1 l2
  | _, _, .nil, _ => .nil
  | _, _, .cons h1 t1, .cons h2 t2 => .cons ⟨h1, h2⟩ (forall₂_and t1 t2)

/-- When a terminator lies in the string `l`, the cell right after the cells
before the first terminator is a terminator. -/
theorem getElem?_after_takeWhile (l : List Int) (h : (0 : Int) ∈ l) :
    l[(l.takeWhile (fun c => c ≠ 0)).length]? = some 0 := by
  induction l with
  | nil => simp at h
  | cons c l ih =>
    by_cases hc : c = 0
    · subst hc
      simp
    · have hl : (0 : Int) ∈ l := by
        rcases List.mem_cons.1 h with h1 | h1
        · exact absurd h1.symm hc
        · exact h1
      have := ih hl
      simpa [List.takeWhile_cons, hc] using this

/-- C14: `parse_arguments` changes the line buffer only by writing terminators
over delimiters: the buffer keeps its length, every cell is unchanged or is a
delimiter turned into a terminator, and the tokens returned are the offsets at
which the runs start in the original line, the string at each being its run,
with a terminator in the cell right after it. -/
theorem parse_arguments_frame (alloc : Nat → Bool) (halloc : ∀ n, alloc n = true)
    (line rest : List Int) (h0 : ∀ c ∈ line, c ≠ 0)
    (hfit : (runs line).length ≤ TOKEN_BUFFER_MAX) :
    ∃ (a : Args) (s' : List Int),
      parse_arguments alloc (line ++ 0 :: rest) = .ok a ∧
      a.input = s' ++ 0 :: rest ∧
      a.input.length = (line ++ 0 :: rest).length ∧
      List.Forall₂ overwritten line s' ∧
      a.argv = runStarts line ∧
      List.Forall₂
        (fun p t => (line.drop p).take t.length = t ∧ cstr a.input p = t ∧
          a.input[p + t.length]? = some 0)
        a.argv (runs line) := by
  obtain ⟨a, s', ha, htok, hin, hfr, hstr, _⟩ :=
    parse_arguments_ok alloc halloc line rest h0 hfit
  obtain ⟨a2, ha2, htok2⟩ :=
    parse_from_offsets alloc halloc rest (line ++ 0 :: rest).length line [] (some 0) 0 0 64 [] []
      h0 rfl (by simp) rfl (Or.inl rfl) (by omega) (by unfold TOKEN_BUFFER_MAX at hfit; omega)
  rw [← parse_arguments_eq alloc (halloc 64), ha] at ha2
  have haa : a = a2 := by
    injection ha2
  subst haa
  have hargv : a.argv = runStarts line :=
    argv_of_token_list a _ (by simpa using htok2)
  have hlen : s'.length = line.length := (List.Forall₂.length_eq hfr).symm
  refine ⟨a, s', ha, hin, by rw [hin]; simp [hlen], hfr, hargv, ?_⟩
  have h1 : List.Forall₂ (fun p t => (line.drop p).take t.length = t) a.argv (runs line) := by
    rw [hargv]
    exact runs_at_runStarts line
  have h2 : List.Forall₂ (fun p t => cstr a.input p = t) a.argv (runs line) := by
    rw [← hstr]
    unfold Args.strings
    rw [List.forall₂_map_right_iff]
    exact List.forall₂_same.2 (fun _ _ => rfl)
  have h3 : List.Forall₂ (fun p t => t ∈ runs line) a.argv (runs line) := by
    rw [← hstr]
    unfold Args.strings
    rw [List.forall₂_map_right_iff]
    exact List.forall₂_same.2 (fun p hp => List.mem_map_of_mem _ hp)
  refine List.Forall₂.imp ?_ (forall₂_and (forall₂_and h1 h2) h3)
  intro p t hpt
  obtain ⟨⟨hp1, hp2⟩, hp3⟩ := hpt
  refine ⟨hp1, hp2, ?_⟩
  have htne : t ≠ [] := runs_ne_nil line t hp3
  have hplt : p < line.length := by
    by_contra hge
    rw [List.drop_eq_nil_of_le (by omega)] at hp1
    exact htne (by simpa using hp1.symm)
  have hmem : (0 : Int) ∈ a.input.drop p := by
    rw [hin, List.drop_append_of_le_length (by omega)]
    simp
  have := getElem?_after_takeWhile (a.input.drop p) hmem
  rw [List.getElem?_drop] at this
  unfold cstr at hp2
  rw [hp2] at this
  exact this

/-- C14 at a line with delimiters of mixed kinds: the two tokens start at the
offsets 2 and 6, and the delimiters after them became terminators. -/
theorem parse_arguments_frame_witness :
    runStarts [9, 32, 97, 98, 13, 10, 99, 32] = [2, 6] ∧
    ∃ (a : Args) (s' : List Int),
      parse_arguments (fun _ => true) ([9, 32, 97, 98, 13, 10, 99, 32] ++ 0 :: []) = .ok a ∧
      a.input = s' ++ 0 :: [] ∧
      a.input.length = ([9, 32, 97, 98, 13, 10, 99, 32] ++ 0 :: []).length ∧
      List.Forall₂ overwritten [9, 32, 97, 98, 13, 10, 99, 32] s' ∧
      a.argv = runStarts [9, 32, 97, 98, 13, 10, 99, 32] ∧
      List.Forall₂
        (fun p t => (([9, 32, 97, 98, 13, 10, 99, 32] : List Int).drop p).take t.length = t ∧
          cstr a.input p = t ∧ a.input[p + t.length]? = some 0)
        a.argv (runs [9, 32, 97, 98, 13, 10, 99, 32]) :=
  ⟨by decide, parse_arguments_frame (fun _ => true) (fun _ => rfl)
    [9, 32, 97, 98, 13, 10, 99, 32] [] (by decide) (by decide)⟩

set_option maxRecDepth 100000 in
/-- C15: the code on the line of 64 tokens. The 64 tokens fill the list of
capacity 64, which has not grown, and the end marker `NULL` is stored at index
64. -/
theorem parse_arguments_end_marker_at_capacity :
    (parse_arguments (fun _ => true) (many_tokens 64 ++ [0])).map
      (fun a => (a.token_cnt, a.token_list_size, a.writes.getLast?)) =
      .ok (64, 64, some (64, 64)) := by
  decide

/-! ## Tokenizing the join of the tokens -/

/-- The characters of a run are characters of the line, and none is a
delimiter. -/
theorem mem_of_mem_runs (line t : List Int) (ht : t ∈ runs line) :
    ∀ c ∈ t, c ∈ line ∧ isDelim c = false := by
  suffices h : ∀ n (l : List Int), l.length ≤ n → ∀ t ∈ runs l, ∀ c ∈ t,
      c ∈ l ∧ isDelim c = false from h line.length line (Nat.le_refl _) t ht
  intro n
  induction n with
  | zero =>
    intro l hl t ht
    have : l = [] := List.length_eq_zero.1 (Nat.le_zero.1 hl)
    subst this
    rw [runs_nil] at ht
    simp at ht
  | succ n ih =>
    intro l hl t1 ht1 c hc
    rcases line_cases l with hall | ⟨ds, t, hs, hds, hne, ht⟩ | ⟨ds, t, d, x, hs, hds, hne, ht, hd⟩
    · rw [runs_all_delim l hall] at ht1
      simp at ht1
    · subst hs
      rw [runs_delims_append ds t hds, runs_token_last t hne ht, List.mem_singleton] at ht1
      subst ht1
      exact ⟨by simp [hc], ht c hc⟩
    · subst hs
      have hx : x.length ≤ n := by
        simp only [List.length_append, List.length_cons] at hl
        omega
      rw [runs_delims_append ds _ hds, runs_token_more t x d hne ht hd, List.mem_cons] at ht1
      rcases ht1 with h | h
      · subst h
        exact ⟨by simp [hc], ht c hc⟩
      · obtain ⟨h1, h2⟩ := ih x hx t1 h c hc
        exact ⟨by simp [h1], h2⟩

theorem mem_joinSp (ts : List (List Int)) (c : Int) (hc : c ∈ joinSp ts) :
    c = 32 ∨ ∃ t ∈ ts, c ∈ t := by
  induction ts with
  | nil => simp [joinSp] at hc
  | cons t ts ih =>
    cases ts with
    | nil => exact Or.inr ⟨t, by simp, by simpa [joinSp] using hc⟩
    | cons r rs =>
      rw [joinSp_cons_cons, List.mem_append, List.mem_cons] at hc
      rcases hc with h | h | h
      · exact Or.inr ⟨t, by simp, h⟩
      · exact Or.inl h
      · rcases ih h with h1 | ⟨t2, ht2, hct2⟩
        · exact Or.inl h1
        · exact Or.inr ⟨t2, List.mem_cons_of_mem _ ht2, hct2⟩

/-- Splitting the single-space join of non-empty, delimiter-free strings gives
the strings back. -/
theorem runs_joinSp (ts : List (List Int))
    (h : ∀ t ∈ ts, t ≠ [] ∧ ∀ c ∈ t, isDelim c = false) : runs (joinSp ts) = ts := by
  induction ts with
  | nil => exact runs_nil
  | cons t ts ih =>
    obtain ⟨hne, ht⟩ := h t (by simp)
    cases ts with
    | nil => exact runs_token_last t hne ht
    | cons r rs =>
      rw [joinSp_cons_cons, runs_token_more t _ 32 hne ht (by decide),
        ih (fun t2 ht2 => h t2 (List.mem_cons_of_mem _ ht2))]

/-- C18: for every line within the token limit, `parse_arguments` applied to
the single-space join of the tokens it returned for the line returns the same
token sequence. -/
theorem parse_arguments_of_join (alloc : Nat → Bool) (halloc : ∀ n, alloc n = true)
    (line rest rest2 : List Int) (h0 : ∀ c ∈ line, c ≠ 0)
    (hfit : (runs line).length ≤ TOKEN_BUFFER_MAX) :
    ∃ (a b : Args), parse_arguments alloc (line ++ 0 :: rest) = .ok a ∧
      parse_arguments alloc (joinSp a.strings ++ 0 :: rest2) = .ok b ∧
      b.strings = a.strings := by
  obtain ⟨a, _, ha, _, _, _, hstr, _⟩ := parse_arguments_ok alloc halloc line rest h0 hfit
  have hruns : runs (joinSp (runs line)) = runs line :=
    runs_joinSp (runs line) (fun t ht =>
      ⟨runs_ne_nil line t ht, fun c hc => (mem_of_mem_runs line t ht c hc).2⟩)
  have hj0 : ∀ c ∈ joinSp (runs line), c ≠ 0 := by
    intro c hc
    rcases mem_joinSp (runs line) c hc with h | ⟨t, ht, hct⟩
    · omega
    · exact h0 c (mem_of_mem_runs line t ht c hct).1
  obtain ⟨b, _, hb, _, _, _, hstrb, _⟩ :=
    parse_arguments_ok alloc halloc (joinSp (runs line)) rest2 hj0 (by rw [hruns]; exact hfit)
  refine ⟨a, b, ha, ?_, ?_⟩
  · rw [hstr]
    exact hb
  · rw [hstrb, hruns, hstr]

/-- C18 at a line with delimiters of mixed kinds, whose tokens joined are
`ab c`. -/
theorem parse_arguments_of_join_witness :
    joinSp (runs [9, 32, 97, 98, 13, 10, 99, 32]) = [97, 98, 32, 99] ∧
    ∃ (a b : Args),
      parse_arguments (fun _ => true) ([9, 32, 97, 98, 13, 10, 99, 32] ++ 0 :: []) = .ok a ∧
      parse_arguments (fun _ => true) (joinSp a.strings ++ 0 :: []) = .ok b ∧
      b.strings = a.strings :=
  ⟨by decide, parse_arguments_of_join (fun _ => true) (fun _ => rfl)
    [9, 32, 97, 98, 13, 10, 99, 32] [] [] (by decide) (by decide)⟩

/-! ## The loop of `main` on newline-terminated lines -/

/-- On an input that begins with newline-terminated lines, none of which holds
a byte that narrows to `EOF`, each within the size and token limits, and with
every `run_command` returning, the loop of `main` writes the prompt before each
read and launches the commands of the lines in order, each `read_input` call
taking one line with its newline. -/
theorem main_loop_lines (alloc : Nat → Bool) (halloc : ∀ n, alloc n = true) (sys : Nat → Sys)
    (hsys : ∀ i args, ∃ seen, run_command args (sys i) = .returned seen) (rest : List Nat)
    (n : Nat) :
    ∀ (lines : List (List Nat)) (i : Nat) (out : List Event),
      (∀ l ∈ lines, (∀ b ∈ l, charOf b ≠ EOF ∧ charOf b ≠ 10) ∧ l.length ≤ 32768 ∧
        ∃ a, parse_arguments alloc (l.map charOf ++ [0]) = .ok a) →
      main_loop alloc sys (lines.length + n) i
          ((lines.map (fun l => l ++ [10])).flatten ++ rest) out =
        main_loop alloc sys n (i + lines.length) rest
          (out ++ (lines.map (fun l => [Event.prompt, Event.run (command_of alloc l)])).flatten) := by
  intro lines
  induction lines with
  | nil =>
    intro i out _
    simp
  | cons l lines ih =>
    intro i out h
    obtain ⟨hplain, hlen, a, ha⟩ := h l (by simp)
    obtain ⟨cap, w, _, _, hread⟩ := read_input_ok alloc halloc l
      (10 :: ((lines.map (fun l => l ++ [10])).flatten ++ rest)) hplain
      (Or.inr ⟨10, _, rfl, Or.inr (by decide)⟩) hlen
    obtain ⟨seen, hseen⟩ := hsys i a.token_list
    have e1 : ((l :: lines).map (fun l => l ++ [10])).flatten ++ rest =
        l ++ 10 :: ((lines.map (fun l => l ++ [10])).flatten ++ rest) := by simp
    have e2 : (l :: lines).length + n = (lines.length + n) + 1 := by
      simp only [List.length_cons]
      omega
    have hcmd : command_of alloc l = a.strings := by
      unfold command_of
      rw [ha]
    rw [e1, e2, main_loop_succ alloc sys _ i _ out _ a seen hread ha hseen]
    simp only [List.tail_cons]
    rw [ih (i + 1) _ (fun l2 hl2 => h l2 (List.mem_cons_of_mem _ hl2))]
    have e3 : i + 1 + lines.length = i + (lines.length + 1) := by omega
    simp only [List.length_cons, List.map_cons, List.flatten_cons, List.append_assoc, hcmd, e3]

end Ilkorsh
